import Mathlib

/-!
Verification of the c10d Reducer core (torch/csrc/distributed/c10d/reducer.cpp)
against its natural-language specification.

The development shallowly embeds the parts of the reducer the claims are
about:

* `CBA`        — `compute_bucket_assignment_by_size` (reducer.cpp:1237-1339)
* `Red`        — the readiness state machine: `mark_variable_ready`,
                 `mark_bucket_ready`, `prepare_for_backward`
* `DenseReady` — `mark_variable_ready_dense` (gradient/bucket-view values)
* `BK`         — `initialize_buckets` / `initialize_bucket_views`
* `Sync`       — `sync_bucket_indices`

Machine integers are modelled as `Nat`/`Int` with explicit wrapping where
it matters; tensor values are modelled as rationals; fallible code returns
`Except`.
-/

namespace CBA

/-- The data of an input tensor that `compute_bucket_assignment_by_size`
reads: scalar type, device, `numel()`, `element_size()`, and whether the
tensor itself has sparse layout (`is_sparse()`).  Scalar types and devices
are modelled as opaque numeric codes; only equality on them is used. -/
structure CTensor where
  scalarType : Nat
  device : Nat
  numel : Nat
  elementSize : Nat
  isSparse : Bool
deriving DecidableEq, Repr, Inhabited

/-- `BucketKey` (reducer.cpp:1212): a tensor's scalar type and device. -/
abbrev Key := Nat × Nat

/-- `BucketAccumulator` (reducer.cpp:1261): indices and a running byte
size for one (type, device) group. -/
structure BucketAccumulator where
  indices : List Nat
  size : Nat
deriving DecidableEq, Repr

/-- The failure modes of `compute_bucket_assignment_by_size`:
the two `TORCH_INTERNAL_ASSERT`s at entry (reducer.cpp:1244-1247) and the
`TORCH_CHECK(!tensor.is_sparse())` inside the loop (reducer.cpp:1272). -/
inductive CBAError where
  | sparseLengthMismatch
  | emptyTensorList
  | sparseTensorInput
deriving DecidableEq, Repr

/-- Association-list lookup, modelling a read of `std::unordered_map`. -/
def lookupA {α : Type} : List (Key × α) → Key → Option α
  | [], _ => none
  | (k, v) :: rest, key => if k = key then some v else lookupA rest key

/-- Association-list write, modelling `std::unordered_map::operator[]`
assignment: replace in place when the key is present, append otherwise.
The C++ `unordered_map` iteration order is unspecified; it is determinized
here as key insertion order. -/
def updateA {α : Type} : List (Key × α) → Key → α → List (Key × α)
  | [], key, v => [(key, v)]
  | (k, w) :: rest, key, v =>
      if k = key then (k, v) :: rest else (k, w) :: updateA rest key v

/-- The state of the main loop of `compute_bucket_assignment_by_size`:
the emitted buckets (`result`), the per-key accumulators (`buckets`) and
the per-key positions into the size-limit vector
(`bucket_size_limit_iterators`, stored as indices). -/
structure LoopState where
  result : List (List Nat)
  buckets : List (Key × BucketAccumulator)
  iterators : List (Key × Nat)
deriving DecidableEq, Repr

/-- reducer.cpp:1276-1279: the recorded index of the tensor at position
`i` is `tensor_indices[i]` when `tensor_indices` is non-empty, `i`
otherwise. -/
def recordedIdx (tidx : List Nat) (i : Nat) : Nat :=
  if tidx.isEmpty then i else tidx.getD i 0

/-- The list of recorded indices of all `n` input positions (the
"intended index set" of the assignment). -/
def recordedAll (tidx : List Nat) (n : Nat) : List Nat :=
  (List.range n).map (recordedIdx tidx)

/-- The body of the loop at reducer.cpp:1274-1309 for a (necessarily
dense-layout) tensor at position `i`; this part of the loop cannot fail. -/
def processDense (limits : List Nat) (flags : List Bool) (tidx : List Nat)
    (i : Nat) (t : CTensor) (s : LoopState) : LoopState :=
  let tensorIndex := recordedIdx tidx i
  -- reducer.cpp:1282-1285: sparse-gradient flag read at the recorded index.
  if !flags.isEmpty && flags.getD tensorIndex false then
    { s with result := s.result ++ [[tensorIndex]] }
  else
    let key : Key := (t.scalarType, t.device)
    let acc0 := (lookupA s.buckets key).getD ⟨[], 0⟩
    let acc : BucketAccumulator :=
      { indices := acc0.indices ++ [tensorIndex]
        size := acc0.size + t.numel * t.elementSize }
    -- reducer.cpp:1294-1296: the iterator starts at begin() when absent.
    let it := (lookupA s.iterators key).getD 0
    let limit := limits.getD it 0
    if limit ≤ acc.size then
      -- emit the accumulator, reset it, and advance the iterator unless
      -- it is already at the last limit (reducer.cpp:1300-1309).
      let it2 := if it + 1 < limits.length then it + 1 else it
      { result := s.result ++ [acc.indices]
        buckets := updateA s.buckets key ⟨[], 0⟩
        iterators := updateA s.iterators key it2 }
    else
      { s with
        buckets := updateA s.buckets key acc
        iterators := updateA s.iterators key it }

/-- One iteration of the loop at reducer.cpp:1270-1310, processing the
tensor at position `i`: the `TORCH_CHECK(!tensor.is_sparse())` at
reducer.cpp:1272, then the fallible-free remainder. -/
def processTensor (limits : List Nat) (flags : List Bool) (tidx : List Nat)
    (i : Nat) (t : CTensor) (s : LoopState) : Except CBAError LoopState :=
  if t.isSparse then .error .sparseTensorInput
  else .ok (processDense limits flags tidx i t s)

/-- The loop over all tensors, threading the position `i`. -/
def assignLoop (limits : List Nat) (flags : List Bool) (tidx : List Nat) :
    List CTensor → Nat → LoopState → Except CBAError LoopState
  | [], _, s => .ok s
  | t :: rest, i, s =>
      match processTensor limits flags tidx i t s with
      | .error e => .error e
      | .ok s2 => assignLoop limits flags tidx rest (i + 1) s2

/-- reducer.cpp:1312-1318: append all remaining non-empty accumulators. -/
def leftoverBuckets (m : List (Key × BucketAccumulator)) : List (List Nat) :=
  (m.filter (fun kv => !kv.2.indices.isEmpty)).map (fun kv => kv.2.indices)

/-- The sort key used at reducer.cpp:1328-1335: the minimum index a bucket
contains (the buckets being sorted are all non-empty). -/
def minIndex (l : List Nat) : Nat := (l.min?).getD 0

/-- reducer.cpp:1327-1336: sort buckets ascending by minimum contained
index.  `std::sort` on the distinct keys produced here is determinized as
a stable merge sort. -/
def sortByMinIndex (r : List (List Nat)) : List (List Nat) :=
  r.mergeSort (fun a b => decide (minIndex a ≤ minIndex b))

/-- `compute_bucket_assignment_by_size` (reducer.cpp:1237-1339). -/
def compute_bucket_assignment_by_size (tensors : List CTensor)
    (bucket_size_limits : List Nat) (expect_sparse_gradient : List Bool)
    (tensor_indices : List Nat) : Except CBAError (List (List Nat)) :=
  if !(expect_sparse_gradient.isEmpty
        || tensors.length == expect_sparse_gradient.length) then
    .error .sparseLengthMismatch
  else if tensors.isEmpty then
    .error .emptyTensorList
  else
    match assignLoop bucket_size_limits expect_sparse_gradient tensor_indices
        tensors 0 ⟨[], [], []⟩ with
    | .error e => .error e
    | .ok s =>
        let result := s.result ++ leftoverBuckets s.buckets
        if tensor_indices.isEmpty then .ok (sortByMinIndex result)
        else .ok result

/-- The accumulated (not yet emitted) indices of all groups, flattened. -/
def accsFlatten (m : List (Key × BucketAccumulator)) : List Nat :=
  (m.map (fun kv => kv.2.indices)).flatten

theorem lookupA_mem {α : Type} {m : List (Key × α)} {k : Key} {a : α}
    (h : lookupA m k = some a) : (k, a) ∈ m := by
  induction m with
  | nil => simp [lookupA] at h
  | cons kv rest ih =>
      obtain ⟨k', v⟩ := kv
      by_cases hk : k' = k
      · subst hk
        simp [lookupA] at h
        simp [h]
      · simp [lookupA, hk] at h
        exact List.mem_cons_of_mem _ (ih h)

theorem mem_updateA {α : Type} {m : List (Key × α)} {k : Key} {v : α}
    {kv : Key × α} (h : kv ∈ updateA m k v) : kv = (k, v) ∨ kv ∈ m := by
  induction m with
  | nil => simp [updateA] at h; simp [h]
  | cons kw rest ih =>
      obtain ⟨k', w⟩ := kw
      by_cases hk : k' = k
      · subst hk
        simp [updateA] at h
        rcases h with h | h
        · exact Or.inl (by simp [h])
        · exact Or.inr (List.mem_cons_of_mem _ h)
      · simp [updateA, hk] at h
        rcases h with h | h
        · exact Or.inr (by simp [h])
        · rcases ih h with h' | h'
          · exact Or.inl h'
          · exact Or.inr (List.mem_cons_of_mem _ h')

theorem updateA_map_fst_of_found {α : Type} {m : List (Key × α)} {k : Key}
    {a : α} (v : α) (h : lookupA m k = some a) :
    (updateA m k v).map Prod.fst = m.map Prod.fst := by
  induction m with
  | nil => simp [lookupA] at h
  | cons kw rest ih =>
      obtain ⟨k', w⟩ := kw
      by_cases hk : k' = k
      · simp [updateA, hk]
      · simp [lookupA, hk] at h
        simp [updateA, hk, ih h]

theorem updateA_map_fst_of_none {α : Type} {m : List (Key × α)} {k : Key}
    (v : α) (h : lookupA m k = none) :
    (updateA m k v).map Prod.fst = m.map Prod.fst ++ [k] := by
  induction m with
  | nil => simp [updateA]
  | cons kw rest ih =>
      obtain ⟨k', w⟩ := kw
      by_cases hk : k' = k
      · simp [lookupA, hk] at h
      · simp [lookupA, hk] at h
        simp [updateA, hk, ih h]

theorem accsFlatten_cons (kv : Key × BucketAccumulator)
    (m : List (Key × BucketAccumulator)) :
    accsFlatten (kv :: m) = kv.2.indices ++ accsFlatten m := rfl

theorem accsFlatten_updateA_some {m : List (Key × BucketAccumulator)}
    {k : Key} {a : BucketAccumulator} (v : BucketAccumulator)
    (h : lookupA m k = some a) :
    (accsFlatten (updateA m k v) : Multiset Nat) + (a.indices : Multiset Nat)
      = (accsFlatten m : Multiset Nat) + (v.indices : Multiset Nat) := by
  induction m with
  | nil => simp [lookupA] at h
  | cons kw rest ih =>
      obtain ⟨k', w⟩ := kw
      by_cases hk : k' = k
      · subst hk
        have hw : a = w := by
          have := h
          simp [lookupA] at this
          exact this.symm
        subst hw
        have hrw : updateA ((k', a) :: rest) k' v = (k', v) :: rest := by
          simp [updateA]
        rw [hrw, accsFlatten_cons, accsFlatten_cons]
        simp only [← Multiset.coe_add]
        abel
      · simp only [lookupA, if_neg hk] at h
        have hrw : updateA ((k', w) :: rest) k v = (k', w) :: updateA rest k v := by
          simp [updateA, hk]
        rw [hrw, accsFlatten_cons, accsFlatten_cons]
        have hi := ih h
        simp only [← Multiset.coe_add] at hi ⊢
        rw [add_assoc, add_assoc, hi]

theorem accsFlatten_updateA_none {m : List (Key × BucketAccumulator)}
    {k : Key} (v : BucketAccumulator) (h : lookupA m k = none) :
    accsFlatten (updateA m k v) = accsFlatten m ++ v.indices := by
  induction m with
  | nil => simp [updateA, accsFlatten]
  | cons kw rest ih =>
      obtain ⟨k', w⟩ := kw
      by_cases hk : k' = k
      · simp [lookupA, hk] at h
      · simp only [lookupA, if_neg hk] at h
        have hrw : updateA ((k', w) :: rest) k v = (k', w) :: updateA rest k v := by
          simp [updateA, hk]
        rw [hrw, accsFlatten_cons, accsFlatten_cons, ih h, List.append_assoc]

theorem leftoverBuckets_flatten (m : List (Key × BucketAccumulator)) :
    (leftoverBuckets m).flatten = accsFlatten m := by
  induction m with
  | nil => simp [leftoverBuckets, accsFlatten]
  | cons kv rest ih =>
      by_cases h : kv.2.indices.isEmpty
      · have : kv.2.indices = [] := by
          cases hx : kv.2.indices <;> simp_all
        simp [leftoverBuckets, accsFlatten, h, this] at ih ⊢
        simpa [leftoverBuckets, accsFlatten] using ih
      · simp [leftoverBuckets, accsFlatten, h] at ih ⊢
        simpa [leftoverBuckets, accsFlatten] using ih

theorem mem_leftoverBuckets {m : List (Key × BucketAccumulator)}
    {b : List Nat} (h : b ∈ leftoverBuckets m) :
    b ≠ [] ∧ ∃ kv ∈ m, b = kv.2.indices := by
  simp only [leftoverBuckets, List.mem_map, List.mem_filter] at h
  obtain ⟨kv, ⟨hmem, hne⟩, rfl⟩ := h
  refine ⟨?_, kv, hmem, rfl⟩
  cases hx : kv.2.indices <;> simp_all

theorem drop_cons_facts {α : Type} [Inhabited α] {l : List α} {i : Nat}
    {t : α} {rest : List α} (h : l.drop i = t :: rest) :
    i < l.length ∧ l.getD i default = t ∧ l.drop (i + 1) = rest := by
  have hlen : i < l.length := by
    by_contra hge
    rw [List.drop_eq_nil_of_le (Nat.le_of_not_lt hge)] at h
    exact (List.cons_ne_nil _ _) h.symm
  have hget : l[i]? = some t := by
    have := List.getElem?_drop l i 0
    rw [h] at this
    simpa using this.symm
  refine ⟨hlen, ?_, ?_⟩
  · simp [List.getD_eq_getElem?_getD, hget]
  · have := List.tail_drop l i
    rw [h] at this
    simpa using this.symm

theorem assignLoop_cons_sparse {limits : List Nat} {flags : List Bool}
    {tidx : List Nat} {t : CTensor} {rest : List CTensor} {i : Nat}
    {s : LoopState} (hsp : t.isSparse = true) :
    assignLoop limits flags tidx (t :: rest) i s
      = .error .sparseTensorInput := by
  simp [assignLoop, processTensor, hsp]

theorem assignLoop_cons_not_sparse {limits : List Nat} {flags : List Bool}
    {tidx : List Nat} {t : CTensor} {rest : List CTensor} {i : Nat}
    {s : LoopState} (hsp : t.isSparse = false) :
    assignLoop limits flags tidx (t :: rest) i s
      = assignLoop limits flags tidx rest (i + 1)
          (processDense limits flags tidx i t s) := by
  simp [assignLoop, processTensor, hsp]

theorem assignLoop_not_sparse_ok (limits : List Nat) (flags : List Bool)
    (tidx : List Nat) :
    ∀ (ts : List CTensor) (i : Nat) (s : LoopState),
      (∀ t ∈ ts, t.isSparse = false) →
      ∃ s2, assignLoop limits flags tidx ts i s = .ok s2 := by
  intro ts
  induction ts with
  | nil => intro i s _; exact ⟨s, rfl⟩
  | cons t rest ih =>
      intro i s hall
      obtain ⟨s2, hs2⟩ := ih (i + 1) (processDense limits flags tidx i t s)
        (fun u hu => hall u (by simp [hu]))
      refine ⟨s2, ?_⟩
      rw [assignLoop_cons_not_sparse (hall t (by simp))]
      exact hs2

theorem processDense_result_extends {limits : List Nat} {flags : List Bool}
    {tidx : List Nat} {i : Nat} {t : CTensor} {s : LoopState} :
    ∃ suf, (processDense limits flags tidx i t s).result = s.result ++ suf := by
  simp only [processDense]
  split
  · exact ⟨_, rfl⟩
  · split
    · exact ⟨_, rfl⟩
    · exact ⟨[], by simp⟩

theorem assignLoop_result_extends {limits : List Nat} {flags : List Bool}
    {tidx : List Nat} :
    ∀ {ts : List CTensor} {i : Nat} {s s2 : LoopState},
      assignLoop limits flags tidx ts i s = .ok s2 →
      ∃ suf, s2.result = s.result ++ suf := by
  intro ts
  induction ts with
  | nil =>
      intro i s s2 hp
      exact ⟨[], by injection hp with h; rw [← h]; simp⟩
  | cons t rest ih =>
      intro i s s2 hp
      by_cases hsp : t.isSparse = true
      · rw [assignLoop_cons_sparse hsp] at hp
        exact absurd hp (by simp)
      · rw [assignLoop_cons_not_sparse (Bool.not_eq_true _ ▸ hsp)] at hp
        obtain ⟨suf1, h1⟩ :=
          @processDense_result_extends limits flags tidx i t s
        obtain ⟨suf2, h2⟩ := ih hp
        exact ⟨suf1 ++ suf2, by rw [h2, h1, List.append_assoc]⟩

theorem assignLoop_flag_mem {limits : List Nat} {flags : List Bool}
    {tidx : List Nat} :
    ∀ {ts : List CTensor} {i : Nat} {s s2 : LoopState},
      assignLoop limits flags tidx ts i s = .ok s2 →
      ∀ j, i ≤ j → j < i + ts.length →
        flags.getD (recordedIdx tidx j) false = true →
        [recordedIdx tidx j] ∈ s2.result := by
  intro ts
  induction ts with
  | nil =>
      intro i s s2 _ j h1 h2 _
      simp only [List.length_nil, Nat.add_zero] at h2
      omega
  | cons t rest ih =>
      intro i s s2 hp j h1 h2 hflag
      by_cases hsp : t.isSparse = true
      · rw [assignLoop_cons_sparse hsp] at hp
        exact absurd hp (by simp)
      rw [assignLoop_cons_not_sparse (Bool.not_eq_true _ ▸ hsp)] at hp
      rcases Nat.eq_or_lt_of_le h1 with rfl | hlt
      · -- the tensor at position i is processed by this step and takes
        -- the sparse-flag branch, emitting the singleton bucket.
        have hne : flags ≠ [] := by
          intro hnil
          rw [hnil] at hflag
          simp [List.getD] at hflag
        have hcond : (!flags.isEmpty
            && flags.getD (recordedIdx tidx i) false) = true := by
          rw [Bool.and_eq_true]
          exact ⟨by simp [List.isEmpty_iff, hne], hflag⟩
        have hmem1 : [recordedIdx tidx i]
            ∈ (processDense limits flags tidx i t s).result := by
          simp only [processDense, hcond, if_true]
          simp
        obtain ⟨suf, hsuf⟩ := assignLoop_result_extends hp
        rw [hsuf]
        exact List.mem_append_left _ hmem1
      · exact ih hp j hlt (by simpa [Nat.add_right_comm] using h2) hflag

theorem processDense_flatten (limits : List Nat) (flags : List Bool)
    (tidx : List Nat) (i : Nat) (t : CTensor) (s : LoopState) :
    ((processDense limits flags tidx i t s).result.flatten : Multiset Nat)
        + (accsFlatten (processDense limits flags tidx i t s).buckets
            : Multiset Nat)
      = ((s.result.flatten : Multiset Nat)
            + (accsFlatten s.buckets : Multiset Nat))
          + ([recordedIdx tidx i] : Multiset Nat) := by
  simp only [processDense]
  split
  · simp only [List.flatten_append, List.flatten_cons, List.flatten_nil,
      List.append_nil]
    simp only [← Multiset.coe_add]
    abel
  · cases hlook : lookupA s.buckets (t.scalarType, t.device) with
    | some a =>
        simp only [hlook, Option.getD_some]
        split
        · -- emit: the accumulator (old indices plus the new one) moves
          -- from the group map into the result.
          have hEq := accsFlatten_updateA_some (m := s.buckets)
            (k := (t.scalarType, t.device)) (⟨[], 0⟩ : BucketAccumulator) hlook
          simp only [Multiset.coe_nil, add_zero] at hEq
          simp only [List.flatten_append, List.flatten_cons, List.flatten_nil,
            List.append_nil]
          simp only [← Multiset.coe_add]
          rw [← hEq]
          abel
        · -- no emit: the new index joins the group's accumulator.
          have hEq := accsFlatten_updateA_some (m := s.buckets)
            (k := (t.scalarType, t.device))
            (⟨a.indices ++ [recordedIdx tidx i],
              a.size + t.numel * t.elementSize⟩ : BucketAccumulator) hlook
          simp only [← Multiset.coe_add] at hEq
          have h3 : (accsFlatten (updateA s.buckets (t.scalarType, t.device)
              ⟨a.indices ++ [recordedIdx tidx i],
                a.size + t.numel * t.elementSize⟩) : Multiset Nat)
              + (a.indices : Multiset Nat)
              = ((accsFlatten s.buckets : Multiset Nat)
                  + ([recordedIdx tidx i] : Multiset Nat))
              + (a.indices : Multiset Nat) := by
            rw [hEq]; abel
          have h4 := add_right_cancel h3
          rw [h4]
          abel
    | none =>
        simp only [hlook, Option.getD_none]
        split
        · rw [accsFlatten_updateA_none _ hlook]
          simp only [List.flatten_append, List.flatten_cons, List.flatten_nil,
            List.append_nil, List.nil_append]
          simp only [← Multiset.coe_add]
          abel
        · rw [accsFlatten_updateA_none _ hlook]
          simp only [List.nil_append]
          simp only [← Multiset.coe_add]
          abel

theorem assignLoop_flatten {limits : List Nat} {flags : List Bool}
    {tidx : List Nat} :
    ∀ {ts : List CTensor} {i : Nat} {s s2 : LoopState},
      (∀ t ∈ ts, t.isSparse = false) →
      assignLoop limits flags tidx ts i s = .ok s2 →
      (s2.result.flatten : Multiset Nat) + (accsFlatten s2.buckets : Multiset Nat)
        = ((s.result.flatten : Multiset Nat)
              + (accsFlatten s.buckets : Multiset Nat))
            + ((List.range' i ts.length).map (recordedIdx tidx) : Multiset Nat)
      := by
  intro ts
  induction ts with
  | nil =>
      intro i s s2 _ hp
      injection hp with h
      subst h
      simp
  | cons t rest ih =>
      intro i s s2 hall hp
      rw [assignLoop_cons_not_sparse (hall t (by simp))] at hp
      have hstep := processDense_flatten limits flags tidx i t s
      have hrest := ih (fun u hu => hall u (by simp [hu])) hp
      rw [hrest, hstep, List.length_cons, List.range'_succ, List.map_cons,
        ← List.singleton_append]
      simp only [← Multiset.coe_add]
      abel

theorem processDense_nonempty {limits : List Nat} {flags : List Bool}
    {tidx : List Nat} {i : Nat} {t : CTensor} {s : LoopState}
    (h : ∀ b ∈ s.result, b ≠ []) :
    ∀ b ∈ (processDense limits flags tidx i t s).result, b ≠ [] := by
  simp only [processDense]
  split
  · intro b hb
    rcases List.mem_append.mp hb with hb | hb
    · exact h b hb
    · simp at hb
      simp [hb]
  · split
    · intro b hb
      rcases List.mem_append.mp hb with hb | hb
      · exact h b hb
      · simp at hb
        simp [hb]
    · exact h

theorem assignLoop_nonempty {limits : List Nat} {flags : List Bool}
    {tidx : List Nat} :
    ∀ {ts : List CTensor} {i : Nat} {s s2 : LoopState},
      (∀ t ∈ ts, t.isSparse = false) →
      assignLoop limits flags tidx ts i s = .ok s2 →
      (∀ b ∈ s.result, b ≠ []) → ∀ b ∈ s2.result, b ≠ [] := by
  intro ts
  induction ts with
  | nil =>
      intro i s s2 _ hp h
      injection hp with hh
      rw [← hh]
      exact h
  | cons t rest ih =>
      intro i s s2 hall hp h
      rw [assignLoop_cons_not_sparse (hall t (by simp))] at hp
      exact ih (fun u hu => hall u (by simp [hu])) hp
        (processDense_nonempty h)

/-- Every index accumulated for a group comes from a tensor whose scalar
type and device match the group's key. -/
def accTyped (tensors : List CTensor) (tidx : List Nat)
    (m : List (Key × BucketAccumulator)) : Prop :=
  ∀ kv ∈ m, ∀ j, j < tensors.length → recordedIdx tidx j ∈ kv.2.indices →
    (tensors.getD j default).scalarType = kv.1.1
      ∧ (tensors.getD j default).device = kv.1.2

/-- No emitted bucket mixes scalar types or devices. -/
def resTyped (tensors : List CTensor) (tidx : List Nat)
    (r : List (List Nat)) : Prop :=
  ∀ b ∈ r, ∀ j k, j < tensors.length → k < tensors.length →
    recordedIdx tidx j ∈ b → recordedIdx tidx k ∈ b →
    (tensors.getD j default).scalarType = (tensors.getD k default).scalarType
      ∧ (tensors.getD j default).device = (tensors.getD k default).device

theorem processDense_typed {limits : List Nat} {flags : List Bool}
    {tidx : List Nat} {tensors : List CTensor} {i : Nat} {t : CTensor}
    {s : LoopState}
    (hinj : ∀ a b, a < tensors.length → b < tensors.length →
      recordedIdx tidx a = recordedIdx tidx b → a = b)
    (hi : i < tensors.length) (ht : tensors.getD i default = t)
    (hacc : accTyped tensors tidx s.buckets)
    (hres : resTyped tensors tidx s.result) :
    accTyped tensors tidx (processDense limits flags tidx i t s).buckets
      ∧ resTyped tensors tidx (processDense limits flags tidx i t s).result := by
  have hsingle : ∀ j k, j < tensors.length → k < tensors.length →
      recordedIdx tidx j ∈ [recordedIdx tidx i] →
      recordedIdx tidx k ∈ [recordedIdx tidx i] →
      (tensors.getD j default).scalarType = (tensors.getD k default).scalarType
        ∧ (tensors.getD j default).device
            = (tensors.getD k default).device := by
    intro j k hj hk hjm hkm
    simp only [List.mem_singleton] at hjm hkm
    rw [hinj j i hj hi hjm, hinj k i hk hi hkm]
    exact ⟨rfl, rfl⟩
  simp only [processDense]
  split
  · refine ⟨hacc, ?_⟩
    intro b hb
    rcases List.mem_append.mp hb with hb | hb
    · exact hres b hb
    · simp only [List.mem_singleton] at hb
      subst hb
      exact hsingle
  · cases hlook : lookupA s.buckets (t.scalarType, t.device) with
    | some a =>
        -- members of the accumulator for this key are typed like `t`
        have haccmem : ∀ j, j < tensors.length →
            recordedIdx tidx j ∈ a.indices ++ [recordedIdx tidx i] →
            (tensors.getD j default).scalarType = t.scalarType
              ∧ (tensors.getD j default).device = t.device := by
          intro j hj hjm
          rcases List.mem_append.mp hjm with hjm | hjm
          · exact hacc _ (lookupA_mem hlook) j hj hjm
          · simp only [List.mem_singleton] at hjm
            rw [hinj j i hj hi hjm, ht]
            exact ⟨rfl, rfl⟩
        simp only [hlook, Option.getD_some]
        split
        · constructor
          · intro kv hkv j hj hjm
            rcases mem_updateA hkv with rfl | hkv
            · simp at hjm
            · exact hacc kv hkv j hj hjm
          · intro b hb
            rcases List.mem_append.mp hb with hb | hb
            · exact hres b hb
            · simp only [List.mem_singleton] at hb
              subst hb
              intro j k hj hk hjm hkm
              obtain ⟨hj1, hj2⟩ := haccmem j hj hjm
              obtain ⟨hk1, hk2⟩ := haccmem k hk hkm
              rw [hj1, hj2, hk1, hk2]
              exact ⟨rfl, rfl⟩
        · refine ⟨?_, hres⟩
          intro kv hkv j hj hjm
          rcases mem_updateA hkv with rfl | hkv
          · exact haccmem j hj hjm
          · exact hacc kv hkv j hj hjm
    | none =>
        simp only [hlook, Option.getD_none]
        split
        · constructor
          · intro kv hkv j hj hjm
            rcases mem_updateA hkv with rfl | hkv
            · simp at hjm
            · exact hacc kv hkv j hj hjm
          · intro b hb
            rcases List.mem_append.mp hb with hb | hb
            · exact hres b hb
            · simp only [List.mem_singleton, List.nil_append] at hb
              subst hb
              exact hsingle
        · refine ⟨?_, hres⟩
          intro kv hkv j hj hjm
          rcases mem_updateA hkv with rfl | hkv
          · simp only [List.nil_append, List.mem_singleton] at hjm
            rw [hinj j i hj hi hjm, ht]
            exact ⟨rfl, rfl⟩
          · exact hacc kv hkv j hj hjm

theorem assignLoop_typed {limits : List Nat} {flags : List Bool}
    {tidx : List Nat} {tensors : List CTensor}
    (hinj : ∀ a b, a < tensors.length → b < tensors.length →
      recordedIdx tidx a = recordedIdx tidx b → a = b) :
    ∀ (ts : List CTensor) (i : Nat) (s s2 : LoopState),
      ts = tensors.drop i →
      assignLoop limits flags tidx ts i s = .ok s2 →
      accTyped tensors tidx s.buckets → resTyped tensors tidx s.result →
      accTyped tensors tidx s2.buckets ∧ resTyped tensors tidx s2.result := by
  intro ts
  induction ts with
  | nil =>
      intro i s s2 _ hp ha hr
      injection hp with h
      subst h
      exact ⟨ha, hr⟩
  | cons t rest ih =>
      intro i s s2 hdrop hp ha hr
      obtain ⟨hi, ht, hrest⟩ := drop_cons_facts hdrop.symm
      by_cases hsp : t.isSparse = true
      · rw [assignLoop_cons_sparse hsp] at hp
        exact absurd hp (by simp)
      rw [assignLoop_cons_not_sparse (Bool.not_eq_true _ ▸ hsp)] at hp
      obtain ⟨ha2, hr2⟩ := processDense_typed hinj hi ht ha hr
      exact ih (i + 1) _ s2 hrest.symm hp ha2 hr2

theorem recordedAll_nil_tidx (n : Nat) : recordedAll [] n = List.range n := by
  have h : recordedIdx [] = fun i => i := by
    funext i
    simp [recordedIdx]
  rw [recordedAll, h, List.map_id']

theorem recordedAll_eq_self {tidx : List Nat} {n : Nat}
    (hlen : tidx.length = n) (hne : tidx ≠ []) : recordedAll tidx n = tidx := by
  apply List.ext_getElem
  · simp [recordedAll, hlen]
  · intro idx h1 h2
    have hidx : idx < n := by simpa [recordedAll] using h1
    simp only [recordedAll, List.getElem_map, List.getElem_range, recordedIdx]
    rw [if_neg (by simp [hne])]
    rw [List.getD_eq_getElem?_getD, List.getElem?_eq_getElem h2]
    simp

theorem recordedIdx_inj_of_nodup {tidx : List Nat} {n : Nat}
    (hnd : (recordedAll tidx n).Nodup) :
    ∀ a b, a < n → b < n → recordedIdx tidx a = recordedIdx tidx b → a = b := by
  intro a b ha hb h
  have hlen : (recordedAll tidx n).length = n := by simp [recordedAll]
  have ha2 : a < (recordedAll tidx n).length := by omega
  have hb2 : b < (recordedAll tidx n).length := by omega
  have hga : (recordedAll tidx n)[a] = recordedIdx tidx a := by
    simp [recordedAll]
  have hgb : (recordedAll tidx n)[b] = recordedIdx tidx b := by
    simp [recordedAll]
  exact (List.Nodup.getElem_inj_iff hnd).mp (by rw [hga, hgb]; exact h)

/-- C2: for a non-empty dense tensor list, at least one budget, a flag
vector that is empty or of matching length, and default or
arrival-order indices, the returned buckets partition the intended index
set, are all non-empty, give every sparse-flagged tensor a singleton
bucket, and never mix scalar types or devices. -/
theorem compute_bucket_assignment_partition
    (tensors : List CTensor) (limits : List Nat) (flags : List Bool)
    (tidx : List Nat)
    (hne : tensors ≠ []) (_hlim : limits ≠ [])
    (hflags : flags = [] ∨ flags.length = tensors.length)
    (hdense : ∀ t ∈ tensors, t.isSparse = false)
    (htidx : tidx = [] ∨ tidx.Perm (List.range tensors.length)) :
    ∃ r, compute_bucket_assignment_by_size tensors limits flags tidx = .ok r
      ∧ r.flatten.Perm (recordedAll tidx tensors.length)
      ∧ (∀ b ∈ r, b ≠ [])
      ∧ (∀ i, i < tensors.length →
          flags.getD (recordedIdx tidx i) false = true →
          [recordedIdx tidx i] ∈ r)
      ∧ (∀ b ∈ r, ∀ j k, j < tensors.length → k < tensors.length →
          recordedIdx tidx j ∈ b → recordedIdx tidx k ∈ b →
          (tensors.getD j default).scalarType
              = (tensors.getD k default).scalarType
            ∧ (tensors.getD j default).device
                = (tensors.getD k default).device) := by
  obtain ⟨s2, hs2⟩ :=
    assignLoop_not_sparse_ok limits flags tidx tensors 0 ⟨[], [], []⟩ hdense
  -- the unsorted result before the optional final sort
  set r0 : List (List Nat) := s2.result ++ leftoverBuckets s2.buckets with hr0
  have hc1 : (flags.isEmpty || tensors.length == flags.length) = true := by
    rcases hflags with rfl | h
    · simp
    · simp [h]
  have hrun : compute_bucket_assignment_by_size tensors limits flags tidx
      = if tidx.isEmpty then .ok (sortByMinIndex r0) else .ok r0 := by
    simp only [compute_bucket_assignment_by_size, hc1, Bool.not_true,
      Bool.false_eq_true, if_false]
    rw [if_neg (by simp [hne])]
    rw [hs2]
  -- no-duplicate recorded indices, and injectivity of the recording map
  have hnd : (recordedAll tidx tensors.length).Nodup := by
    rcases htidx with rfl | hperm
    · rw [recordedAll_nil_tidx]
      exact List.nodup_range _
    · have hlen : tidx.length = tensors.length := by
        simpa using hperm.length_eq
      have hpos : tensors.length ≠ 0 := by
        intro h0
        exact hne (List.eq_nil_of_length_eq_zero h0)
      have htne : tidx ≠ [] := by
        intro h0
        rw [h0] at hlen
        exact hpos hlen.symm
      rw [recordedAll_eq_self hlen htne]
      exact hperm.nodup_iff.mpr (List.nodup_range _)
  have hinj := recordedIdx_inj_of_nodup hnd
  -- the partition property for the unsorted result
  have hflat0 : r0.flatten.Perm (recordedAll tidx tensors.length) := by
    have h := assignLoop_flatten hdense hs2
    have hinit : accsFlatten ([] : List (Key × BucketAccumulator)) = [] := rfl
    simp only [hinit, List.flatten_nil, Multiset.coe_nil, add_zero,
      zero_add] at h
    rw [← Multiset.coe_eq_coe]
    rw [hr0, List.flatten_append, leftoverBuckets_flatten]
    simp only [← Multiset.coe_add]
    rw [h, ← List.range_eq_range']
    rfl
  have hnonempty0 : ∀ b ∈ r0, b ≠ [] := by
    intro b hb
    rcases List.mem_append.mp hb with hb | hb
    · exact assignLoop_nonempty hdense hs2 (by simp) b hb
    · exact (mem_leftoverBuckets hb).1
  have hsingle0 : ∀ i, i < tensors.length →
      flags.getD (recordedIdx tidx i) false = true →
      [recordedIdx tidx i] ∈ r0 := by
    intro i hi hflag
    exact List.mem_append_left _
      (assignLoop_flag_mem hs2 i (Nat.zero_le i) (by simpa using hi) hflag)
  have htyped0 : ∀ b ∈ r0, ∀ j k, j < tensors.length → k < tensors.length →
      recordedIdx tidx j ∈ b → recordedIdx tidx k ∈ b →
      (tensors.getD j default).scalarType
          = (tensors.getD k default).scalarType
        ∧ (tensors.getD j default).device
            = (tensors.getD k default).device := by
    have hloop := assignLoop_typed hinj tensors 0 ⟨[], [], []⟩ s2
      (by simp) hs2 (by intro kv hkv; simp at hkv) (by intro b hb; simp at hb)
    intro b hb
    rcases List.mem_append.mp hb with hb | hb
    · exact hloop.2 b hb
    · obtain ⟨_, kv, hkv, rfl⟩ := mem_leftoverBuckets hb
      intro j k hj hk hjm hkm
      obtain ⟨hj1, hj2⟩ := hloop.1 kv hkv j hj hjm
      obtain ⟨hk1, hk2⟩ := hloop.1 kv hkv k hk hkm
      rw [hj1, hj2, hk1, hk2]
      exact ⟨rfl, rfl⟩
  by_cases htE : tidx.isEmpty
  · refine ⟨sortByMinIndex r0, by rw [hrun, if_pos htE], ?_, ?_, ?_, ?_⟩
    · exact ((List.mergeSort_perm r0 _).flatten).trans hflat0
    · intro b hb
      exact hnonempty0 b ((List.mergeSort_perm r0 _).mem_iff.mp hb)
    · intro i hi hflag
      exact (List.mergeSort_perm r0 _).mem_iff.mpr (hsingle0 i hi hflag)
    · intro b hb
      exact htyped0 b ((List.mergeSort_perm r0 _).mem_iff.mp hb)
  · exact ⟨r0, by rw [hrun, if_neg htE], hflat0, hnonempty0, hsingle0, htyped0⟩

/-- Witness for C2 on a concrete input: three float32 CPU tensors of 16
bytes each with a 16-byte budget give three singleton buckets. -/
theorem compute_bucket_assignment_partition_witness :
    ∃ r, compute_bucket_assignment_by_size
        [⟨0, 0, 4, 4, false⟩, ⟨0, 0, 4, 4, false⟩, ⟨0, 0, 4, 4, false⟩]
        [16] [] [] = .ok r
      ∧ r.flatten.Perm (recordedAll [] 3)
      ∧ (∀ b ∈ r, b ≠ [])
      ∧ (∀ i, i < 3 → ([] : List Bool).getD (recordedIdx [] i) false = true →
          [recordedIdx [] i] ∈ r)
      ∧ (∀ b ∈ r, ∀ j k, j < 3 → k < 3 →
          recordedIdx [] j ∈ b → recordedIdx [] k ∈ b →
          (([⟨0, 0, 4, 4, false⟩, ⟨0, 0, 4, 4, false⟩,
              ⟨0, 0, 4, 4, false⟩] : List CTensor).getD j default).scalarType
              = (([⟨0, 0, 4, 4, false⟩, ⟨0, 0, 4, 4, false⟩,
                  ⟨0, 0, 4, 4, false⟩] : List CTensor).getD k default).scalarType
            ∧ (([⟨0, 0, 4, 4, false⟩, ⟨0, 0, 4, 4, false⟩,
                ⟨0, 0, 4, 4, false⟩] : List CTensor).getD j default).device
                = (([⟨0, 0, 4, 4, false⟩, ⟨0, 0, 4, 4, false⟩,
                    ⟨0, 0, 4, 4, false⟩] : List CTensor).getD k default).device)
      := by
  exact compute_bucket_assignment_partition
    [⟨0, 0, 4, 4, false⟩, ⟨0, 0, 4, 4, false⟩, ⟨0, 0, 4, 4, false⟩]
    [16] [] []
    (by decide) (by decide) (Or.inl rfl) (by decide) (Or.inl rfl)

theorem recordedIdx_of_ne_nil {tidx : List Nat} (h : tidx ≠ []) (i : Nat) :
    recordedIdx tidx i = tidx.getD i 0 := by
  simp [recordedIdx, h]

theorem assignLoop_sparse_error {limits : List Nat} {flags : List Bool}
    {tidx : List Nat} :
    ∀ (ts : List CTensor) (i : Nat) (s : LoopState),
      (∃ t ∈ ts, t.isSparse = true) →
      assignLoop limits flags tidx ts i s = .error .sparseTensorInput := by
  intro ts
  induction ts with
  | nil => intro i s h; simp at h
  | cons t rest ih =>
      intro i s h
      by_cases hsp : t.isSparse = true
      · exact assignLoop_cons_sparse hsp
      · rw [assignLoop_cons_not_sparse (Bool.not_eq_true _ ▸ hsp)]
        obtain ⟨u, hu, hus⟩ := h
        rcases List.mem_cons.mp hu with rfl | hu
        · exact absurd hus hsp
        · exact ih (i + 1) _ ⟨u, hu, hus⟩

/-- C10: even when a tensor's entry in `expect_sparse_gradient` is true,
the tensor itself must have dense layout: any sparse-layout input makes
`compute_bucket_assignment_by_size` fail (`TORCH_CHECK(!tensor.is_sparse())`,
reducer.cpp:1272). -/
theorem compute_bucket_assignment_rejects_sparse_layout
    (tensors : List CTensor) (limits : List Nat) (flags : List Bool)
    (tidx : List Nat)
    (hflags : flags = [] ∨ flags.length = tensors.length)
    (hsp : ∃ t ∈ tensors, t.isSparse = true) :
    compute_bucket_assignment_by_size tensors limits flags tidx
      = .error .sparseTensorInput := by
  have hne : tensors ≠ [] := by
    obtain ⟨t, ht, _⟩ := hsp
    intro h0
    rw [h0] at ht
    simp at ht
  have hc1 : (flags.isEmpty || tensors.length == flags.length) = true := by
    rcases hflags with rfl | h
    · simp
    · simp [h]
  simp only [compute_bucket_assignment_by_size, hc1, Bool.not_true,
    Bool.false_eq_true, if_false]
  rw [if_neg (by simp [hne])]
  rw [assignLoop_sparse_error tensors 0 ⟨[], [], []⟩ hsp]

/-- Witness for C10: a sparse-layout tensor whose sparse-gradient flag is
true still makes the function fail. -/
theorem compute_bucket_assignment_rejects_sparse_layout_witness :
    compute_bucket_assignment_by_size [⟨0, 0, 4, 4, true⟩] [64] [true] []
      = .error .sparseTensorInput :=
  compute_bucket_assignment_rejects_sparse_layout
    [⟨0, 0, 4, 4, true⟩] [64] [true] [] (Or.inr rfl)
    ⟨⟨0, 0, 4, 4, true⟩, by decide, rfl⟩

theorem processDense_flags_congr {limits : List Nat} {tidx : List Nat}
    {f g : List Bool} (hfg : f.isEmpty = g.isEmpty) (i : Nat) (t : CTensor)
    (s : LoopState)
    (hstep : f.getD (recordedIdx tidx i) false
      = g.getD (recordedIdx tidx i) false) :
    processDense limits f tidx i t s = processDense limits g tidx i t s := by
  simp only [processDense]
  rw [hfg, hstep]

theorem assignLoop_flags_congr {limits : List Nat} {tidx : List Nat}
    {f g : List Bool} (hfg : f.isEmpty = g.isEmpty) :
    ∀ (ts : List CTensor) (i : Nat) (s : LoopState),
      (∀ j, i ≤ j → j < i + ts.length →
        f.getD (recordedIdx tidx j) false = g.getD (recordedIdx tidx j) false) →
      assignLoop limits f tidx ts i s = assignLoop limits g tidx ts i s := by
  intro ts
  induction ts with
  | nil => intro i s _; rfl
  | cons t rest ih =>
      intro i s hag
      by_cases hsp : t.isSparse = true
      · rw [assignLoop_cons_sparse hsp, assignLoop_cons_sparse hsp]
      · rw [assignLoop_cons_not_sparse (Bool.not_eq_true _ ▸ hsp),
          assignLoop_cons_not_sparse (Bool.not_eq_true _ ▸ hsp)]
        rw [processDense_flags_congr hfg i t s
          (hag i (Nat.le_refl i) (by simp))]
        exact ih (i + 1) _ (fun j h1 h2 =>
          hag j (by omega) (by simp at h2 ⊢; omega))

/-- C9: when `tensor_indices` is supplied, the sparse-gradient flag for
the tensor at position `i` is read at `expect_sparse_gradient[tensor_indices[i]]`
(the recorded global parameter index), not at position `i`: the result
depends on the flag vector only through its values at the recorded
indices, and a flag set at the recorded index yields that singleton
bucket. -/
theorem compute_bucket_assignment_flag_indexed_by_tensor_indices :
    (∀ (tensors : List CTensor) (limits : List Nat) (f g : List Bool)
        (tidx : List Nat),
      tidx ≠ [] → f.length = tensors.length → g.length = tensors.length →
      (∀ i, i < tensors.length →
        f.getD (tidx.getD i 0) false = g.getD (tidx.getD i 0) false) →
      compute_bucket_assignment_by_size tensors limits f tidx
        = compute_bucket_assignment_by_size tensors limits g tidx)
    ∧ (∀ (tensors : List CTensor) (limits : List Nat) (flags : List Bool)
        (tidx : List Nat) (r : List (List Nat)) (i : Nat),
      tidx ≠ [] → i < tensors.length →
      flags.getD (tidx.getD i 0) false = true →
      compute_bucket_assignment_by_size tensors limits flags tidx = .ok r →
      [tidx.getD i 0] ∈ r) := by
  constructor
  · intro tensors limits f g tidx htne hf hg hag
    have hfg : f.isEmpty = g.isEmpty := by
      have hlen : f.length = g.length := hf.trans hg.symm
      cases f <;> cases g <;> simp_all <;> omega
    have hloop := @assignLoop_flags_congr limits tidx f g hfg tensors 0
      ⟨[], [], []⟩
      (fun j _ h2 => by
        rw [recordedIdx_of_ne_nil htne]
        exact hag j (by simpa using h2))
    have hc : (f.isEmpty || tensors.length == f.length)
        = (g.isEmpty || tensors.length == g.length) := by
      rw [hf, hg, hfg]
    simp only [compute_bucket_assignment_by_size, hc, hloop]
  · intro tensors limits flags tidx r i htne hi hflag hok
    have hflag' : flags.getD (recordedIdx tidx i) false = true := by
      rw [recordedIdx_of_ne_nil htne]
      exact hflag
    rw [← recordedIdx_of_ne_nil htne]
    simp only [compute_bucket_assignment_by_size] at hok
    split at hok
    · exact absurd hok (by simp)
    split at hok
    · exact absurd hok (by simp)
    cases hs2 : assignLoop limits flags tidx tensors 0 ⟨[], [], []⟩ with
    | error e => rw [hs2] at hok; exact absurd hok (by simp)
    | ok s2 =>
        rw [hs2] at hok
        simp only [List.isEmpty_iff, htne, if_false, Except.ok.injEq] at hok
        rw [← hok]
        exact List.mem_append_left _
          (assignLoop_flag_mem hs2 i (Nat.zero_le i) (by simpa using hi)
            hflag')

/-- Witness for C9: concrete inputs discharging both conjuncts'
hypotheses. With `tensor_indices = [1, 0]`, changing the flag at an
unrecorded read position leaves the result unchanged, and the flag at the
recorded index 1 yields the singleton bucket `[1]`. -/
theorem compute_bucket_assignment_flag_indexed_witness :
    (compute_bucket_assignment_by_size
        [⟨0, 0, 4, 4, false⟩, ⟨0, 0, 4, 4, false⟩] [64] [false, true] [1, 0]
      = compute_bucket_assignment_by_size
        [⟨0, 0, 4, 4, false⟩, ⟨0, 0, 4, 4, false⟩] [64] [false, true] [1, 0])
    ∧ [(([1, 0] : List Nat).getD 0 0)]
        ∈ [[1], [0]] := by
  constructor
  · exact compute_bucket_assignment_flag_indexed_by_tensor_indices.1
      [⟨0, 0, 4, 4, false⟩, ⟨0, 0, 4, 4, false⟩] [64] [false, true]
      [false, true] [1, 0] (by decide) rfl rfl (fun i _ => rfl)
  · exact compute_bucket_assignment_flag_indexed_by_tensor_indices.2
      [⟨0, 0, 4, 4, false⟩, ⟨0, 0, 4, 4, false⟩] [64] [false, true] [1, 0]
      [[1], [0]] 0 (by decide) (by decide) (by decide) rfl

/-- Reference algorithm for C5, written from the spec's words (spec §4.1):
each (dtype, device) group keeps an accumulator of indices, a running
byte size and a pointer into the budget sequence, clamped at the last
budget. -/
structure SpecGroup where
  indices : List Nat
  size : Nat
  budgetPtr : Nat
deriving DecidableEq, Repr

/-- One tensor step of the spec §4.1 reference algorithm: sparse-flagged
tensors emit singleton buckets; otherwise the index is appended to its
group, the running size grows by `numel * element_size`, and on reaching
the current budget the accumulator is emitted, reset, and the budget
pointer advances clamped at the last budget. -/
def referenceStep (budgets : List Nat) (flags : List Bool) (tidx : List Nat)
    (i : Nat) (t : CTensor)
    (s : List (List Nat) × List (Key × SpecGroup)) :
    List (List Nat) × List (Key × SpecGroup) :=
  let x := recordedIdx tidx i
  if !flags.isEmpty && flags.getD x false then
    (s.1 ++ [[x]], s.2)
  else
    let key : Key := (t.scalarType, t.device)
    let g0 := (lookupA s.2 key).getD ⟨[], 0, 0⟩
    let g : SpecGroup :=
      { indices := g0.indices ++ [x]
        size := g0.size + t.numel * t.elementSize
        budgetPtr := g0.budgetPtr }
    if budgets.getD g.budgetPtr 0 ≤ g.size then
      (s.1 ++ [g.indices],
        updateA s.2 key ⟨[], 0, min (g.budgetPtr + 1) (budgets.length - 1)⟩)
    else
      (s.1, updateA s.2 key g)

def referenceLoop (budgets : List Nat) (flags : List Bool) (tidx : List Nat) :
    List CTensor → Nat → List (List Nat) × List (Key × SpecGroup) →
      List (List Nat) × List (Key × SpecGroup)
  | [], _, s => s
  | t :: rest, i, s =>
      referenceLoop budgets flags tidx rest (i + 1)
        (referenceStep budgets flags tidx i t s)

/-- The spec §4.1 reference algorithm in full: after all tensors, emit
the non-empty accumulators; sort by minimum contained index exactly when
no explicit indices were supplied. -/
def reference_assignment (tensors : List CTensor) (budgets : List Nat)
    (flags : List Bool) (tidx : List Nat) : List (List Nat) :=
  let s := referenceLoop budgets flags tidx tensors 0 ([], [])
  let r := s.1 ++ (s.2.filter (fun kv => !kv.2.indices.isEmpty)).map
    (fun kv => kv.2.indices)
  if tidx.isEmpty then sortByMinIndex r else r

/-- Pairs the code's accumulator map with its budget-iterator map into
the reference algorithm's group map. -/
def combineGroups (b : List (Key × BucketAccumulator))
    (itm : List (Key × Nat)) : List (Key × SpecGroup) :=
  List.zipWith (fun x y => (x.1, ⟨x.2.indices, x.2.size, y.2⟩)) b itm

theorem lookupA_isSome_congr {α β : Type} {b : List (Key × α)}
    {it : List (Key × β)} (h : b.map Prod.fst = it.map Prod.fst) (k : Key) :
    (lookupA b k).isSome = (lookupA it k).isSome := by
  induction b generalizing it with
  | nil =>
      cases it with
      | nil => rfl
      | cons y ys => simp at h
  | cons x xs ih =>
      cases it with
      | nil => simp at h
      | cons y ys =>
          simp only [List.map_cons, List.cons.injEq] at h
          by_cases hk : x.1 = k
          · obtain ⟨x1, x2⟩ := x
            obtain ⟨y1, y2⟩ := y
            simp only at hk h
            simp [lookupA, hk, h.1 ▸ hk]
          · obtain ⟨x1, x2⟩ := x
            obtain ⟨y1, y2⟩ := y
            simp only at hk h
            have hk' : ¬y1 = k := h.1 ▸ hk
            simp only [lookupA, if_neg hk, if_neg hk']
            exact ih h.2

theorem lookupA_combineGroups_some {b : List (Key × BucketAccumulator)}
    {it : List (Key × Nat)} (h : b.map Prod.fst = it.map Prod.fst) {k : Key}
    {a : BucketAccumulator} {p : Nat} (hb : lookupA b k = some a)
    (hit : lookupA it k = some p) :
    lookupA (combineGroups b it) k = some ⟨a.indices, a.size, p⟩ := by
  induction b generalizing it with
  | nil => simp [lookupA] at hb
  | cons x xs ih =>
      cases it with
      | nil => simp at h
      | cons y ys =>
          simp only [List.map_cons, List.cons.injEq] at h
          obtain ⟨x1, x2⟩ := x
          obtain ⟨y1, y2⟩ := y
          simp only at h
          by_cases hk : x1 = k
          · simp only [lookupA, if_pos hk] at hb
            injection hb with hb
            subst hb
            have hk' : y1 = k := h.1 ▸ hk
            simp only [lookupA, if_pos hk'] at hit
            injection hit with hit
            subst hit
            simp [combineGroups, lookupA, hk]
          · simp only [lookupA, if_neg hk] at hb
            have hk' : ¬y1 = k := h.1 ▸ hk
            simp only [lookupA, if_neg hk'] at hit
            simp only [combineGroups, List.zipWith_cons_cons, lookupA,
              if_neg hk]
            exact ih h.2 hb hit

theorem lookupA_combineGroups_none {b : List (Key × BucketAccumulator)}
    {it : List (Key × Nat)} (h : b.map Prod.fst = it.map Prod.fst) {k : Key}
    (hb : lookupA b k = none) :
    lookupA (combineGroups b it) k = none := by
  induction b generalizing it with
  | nil => simp [combineGroups, lookupA]
  | cons x xs ih =>
      cases it with
      | nil => simp [combineGroups, lookupA]
      | cons y ys =>
          simp only [List.map_cons, List.cons.injEq] at h
          obtain ⟨x1, x2⟩ := x
          obtain ⟨y1, y2⟩ := y
          simp only at h
          by_cases hk : x1 = k
          · simp [lookupA, hk] at hb
          · simp only [lookupA, if_neg hk] at hb
            simp only [combineGroups, List.zipWith_cons_cons, lookupA,
              if_neg hk]
            exact ih h.2 hb

theorem combineGroups_updateA {b : List (Key × BucketAccumulator)}
    {it : List (Key × Nat)} (h : b.map Prod.fst = it.map Prod.fst) (k : Key)
    (a : BucketAccumulator) (p : Nat) :
    combineGroups (updateA b k a) (updateA it k p)
      = updateA (combineGroups b it) k ⟨a.indices, a.size, p⟩ := by
  induction b generalizing it with
  | nil =>
      cases it with
      | nil => simp [combineGroups, updateA]
      | cons y ys => simp at h
  | cons x xs ih =>
      cases it with
      | nil => simp at h
      | cons y ys =>
          simp only [List.map_cons, List.cons.injEq] at h
          obtain ⟨x1, x2⟩ := x
          obtain ⟨y1, y2⟩ := y
          simp only at h
          by_cases hk : x1 = k
          · have hk' : y1 = k := h.1 ▸ hk
            simp [combineGroups, updateA, hk, hk']
          · have hk' : ¬y1 = k := h.1 ▸ hk
            simp only [combineGroups, updateA, if_neg hk, if_neg hk',
              List.zipWith_cons_cons]
            rw [← combineGroups, ← combineGroups, ih h.2]

theorem combineGroups_map_fst {b : List (Key × BucketAccumulator)}
    {it : List (Key × Nat)} (h : b.map Prod.fst = it.map Prod.fst) :
    (combineGroups b it).map Prod.fst = b.map Prod.fst := by
  induction b generalizing it with
  | nil => simp [combineGroups]
  | cons x xs ih =>
      cases it with
      | nil => simp at h
      | cons y ys =>
          simp only [List.map_cons, List.cons.injEq] at h
          simp only [combineGroups, List.zipWith_cons_cons, List.map_cons]
          rw [← combineGroups, ih h.2]

theorem combineGroups_leftover {b : List (Key × BucketAccumulator)}
    {it : List (Key × Nat)} (h : b.map Prod.fst = it.map Prod.fst) :
    ((combineGroups b it).filter (fun kv => !kv.2.indices.isEmpty)).map
        (fun kv => kv.2.indices)
      = leftoverBuckets b := by
  induction b generalizing it with
  | nil => simp [combineGroups, leftoverBuckets]
  | cons x xs ih =>
      cases it with
      | nil => simp at h
      | cons y ys =>
          simp only [List.map_cons, List.cons.injEq] at h
          simp only [combineGroups, List.zipWith_cons_cons]
          by_cases he : x.2.indices.isEmpty
          · simp only [leftoverBuckets, List.filter_cons, he,
              Bool.not_true, Bool.false_eq_true, if_false]
            rw [← combineGroups]
            exact ih h.2
          · have he' : (!x.2.indices.isEmpty) = true := by simp [he]
            simp only [leftoverBuckets, List.filter_cons, he', if_true,
              List.map_cons]
            rw [← combineGroups]
            rw [ih h.2]
            rfl

theorem advance_eq_min {p len : Nat} (hp : p < len) :
    (if p + 1 < len then p + 1 else p) = min (p + 1) (len - 1) := by
  split <;> omega

theorem referenceStep_matches {limits : List Nat} {flags : List Bool}
    {tidx : List Nat} {i : Nat} {t : CTensor} {cs : LoopState}
    {sr : List (List Nat)} {sg : List (Key × SpecGroup)}
    (hlim : limits ≠ [])
    (h1 : sr = cs.result)
    (h2 : cs.buckets.map Prod.fst = cs.iterators.map Prod.fst)
    (h3 : sg = combineGroups cs.buckets cs.iterators)
    (h4 : ∀ kv ∈ cs.iterators, kv.2 < limits.length) :
    (referenceStep limits flags tidx i t (sr, sg)).1
        = (processDense limits flags tidx i t cs).result
      ∧ (processDense limits flags tidx i t cs).buckets.map Prod.fst
          = (processDense limits flags tidx i t cs).iterators.map Prod.fst
      ∧ (referenceStep limits flags tidx i t (sr, sg)).2
          = combineGroups (processDense limits flags tidx i t cs).buckets
              (processDense limits flags tidx i t cs).iterators
      ∧ ∀ kv ∈ (processDense limits flags tidx i t cs).iterators,
          kv.2 < limits.length := by
  have hlen : 0 < limits.length := List.length_pos.mpr hlim
  by_cases hf : (!flags.isEmpty && flags.getD (recordedIdx tidx i) false)
      = true
  · simp only [processDense, referenceStep, hf, if_true]
    exact ⟨by rw [h1], h2, by rw [h3], h4⟩
  · simp only [processDense, referenceStep, hf, Bool.false_eq_true, if_false]
    cases hlook : lookupA cs.buckets (t.scalarType, t.device) with
    | some a =>
        have hsome : (lookupA cs.iterators (t.scalarType, t.device)).isSome
            = true := by
          rw [← lookupA_isSome_congr h2, hlook]
          rfl
        obtain ⟨p, hlookit⟩ := Option.isSome_iff_exists.mp hsome
        have hp : p < limits.length := h4 _ (lookupA_mem hlookit)
        rw [h3, lookupA_combineGroups_some h2 hlook hlookit, hlookit]
        simp only [Option.getD_some]
        split
        · -- emit branch on both sides
          refine ⟨by rw [h1], ?_, ?_, ?_⟩
          · rw [updateA_map_fst_of_found _ hlook,
              updateA_map_fst_of_found _ hlookit, h2]
          · rw [combineGroups_updateA h2, advance_eq_min hp]
          · intro kv hkv
            rcases mem_updateA hkv with rfl | hkv
            · simp only
              split <;> omega
            · exact h4 kv hkv
        · -- accumulate branch on both sides
          refine ⟨by rw [h1], ?_, ?_, ?_⟩
          · rw [updateA_map_fst_of_found _ hlook,
              updateA_map_fst_of_found _ hlookit, h2]
          · rw [combineGroups_updateA h2]
          · intro kv hkv
            rcases mem_updateA hkv with rfl | hkv
            · exact hp
            · exact h4 kv hkv
    | none =>
        have hnone : lookupA cs.iterators (t.scalarType, t.device)
            = none := by
          have := lookupA_isSome_congr h2 (t.scalarType, t.device)
          rw [hlook] at this
          cases hx : lookupA cs.iterators (t.scalarType, t.device)
          · rfl
          · rw [hx] at this; simp at this
        rw [h3, lookupA_combineGroups_none h2 hlook, hnone]
        simp only [Option.getD_none]
        split
        · refine ⟨by rw [h1], ?_, ?_, ?_⟩
          · rw [updateA_map_fst_of_none _ hlook,
              updateA_map_fst_of_none _ hnone, h2]
          · rw [combineGroups_updateA h2, advance_eq_min hlen]
          · intro kv hkv
            rcases mem_updateA hkv with rfl | hkv
            · simp only
              split <;> omega
            · exact h4 kv hkv
        · refine ⟨by rw [h1], ?_, ?_, ?_⟩
          · rw [updateA_map_fst_of_none _ hlook,
              updateA_map_fst_of_none _ hnone, h2]
          · rw [combineGroups_updateA h2]
          · intro kv hkv
            rcases mem_updateA hkv with rfl | hkv
            · exact hlen
            · exact h4 kv hkv

theorem referenceLoop_matches {limits : List Nat} {flags : List Bool}
    {tidx : List Nat} (hlim : limits ≠ []) :
    ∀ (ts : List CTensor) (i : Nat) (cs cs2 : LoopState)
      (sr : List (List Nat)) (sg : List (Key × SpecGroup)),
      (∀ t ∈ ts, t.isSparse = false) →
      assignLoop limits flags tidx ts i cs = .ok cs2 →
      sr = cs.result →
      cs.buckets.map Prod.fst = cs.iterators.map Prod.fst →
      sg = combineGroups cs.buckets cs.iterators →
      (∀ kv ∈ cs.iterators, kv.2 < limits.length) →
      (referenceLoop limits flags tidx ts i (sr, sg)).1 = cs2.result
        ∧ cs2.buckets.map Prod.fst = cs2.iterators.map Prod.fst
        ∧ (referenceLoop limits flags tidx ts i (sr, sg)).2
            = combineGroups cs2.buckets cs2.iterators := by
  intro ts
  induction ts with
  | nil =>
      intro i cs cs2 sr sg _ hp h1 h2 h3 _
      injection hp with h
      subst h
      exact ⟨h1, h2, h3⟩
  | cons t rest ih =>
      intro i cs cs2 sr sg hall hp h1 h2 h3 h4
      rw [assignLoop_cons_not_sparse (hall t (by simp))] at hp
      obtain ⟨g1, g2, g3, g4⟩ :=
        referenceStep_matches hlim h1 h2 h3 h4 (i := i) (t := t)
      simp only [referenceLoop]
      have hpair : referenceStep limits flags tidx i t (sr, sg)
          = ((referenceStep limits flags tidx i t (sr, sg)).1,
             (referenceStep limits flags tidx i t (sr, sg)).2) := rfl
      rw [hpair]
      exact ih (i + 1) _ cs2 _ _ (fun u hu => hall u (by simp [hu])) hp
        g1 g2 g3 g4

/-- C5: `compute_bucket_assignment_by_size` computes exactly the spec's
reference algorithm (grouping by (dtype, device), emission at the budget
threshold with a clamped budget pointer, leftover emission, and sorting
by minimum index exactly when no explicit indices were supplied). -/
theorem compute_bucket_assignment_matches_reference
    (tensors : List CTensor) (limits : List Nat) (flags : List Bool)
    (tidx : List Nat)
    (hne : tensors ≠ []) (hlim : limits ≠ [])
    (hflags : flags = [] ∨ flags.length = tensors.length)
    (hdense : ∀ t ∈ tensors, t.isSparse = false) :
    compute_bucket_assignment_by_size tensors limits flags tidx
      = .ok (reference_assignment tensors limits flags tidx) := by
  obtain ⟨s2, hs2⟩ :=
    assignLoop_not_sparse_ok limits flags tidx tensors 0 ⟨[], [], []⟩ hdense
  obtain ⟨g1, g2, g3⟩ := referenceLoop_matches hlim tensors 0 ⟨[], [], []⟩ s2
    [] [] hdense hs2 rfl rfl rfl (by intro kv hkv; simp at hkv)
  have hc1 : (flags.isEmpty || tensors.length == flags.length) = true := by
    rcases hflags with rfl | h
    · simp
    · simp [h]
  have href : reference_assignment tensors limits flags tidx
      = if tidx.isEmpty then
          sortByMinIndex (s2.result ++ leftoverBuckets s2.buckets)
        else s2.result ++ leftoverBuckets s2.buckets := by
    simp only [reference_assignment]
    rw [g1, g3, combineGroups_leftover g2]
  rw [href]
  simp only [compute_bucket_assignment_by_size, hc1, Bool.not_true,
    Bool.false_eq_true, if_false]
  rw [if_neg (by simp [hne]), hs2]
  split
  · rename_i heq
    simp at heq
  · rename_i s3 heq
    injection heq with heq
    subst heq
    split <;> rfl

/-- Witness for C5 on the spec's rebuild scenario S6: four 8-byte
tensors, budget 16, arrival order 3, 1, 0, 2. -/
theorem compute_bucket_assignment_matches_reference_witness :
    compute_bucket_assignment_by_size
        [⟨0, 0, 2, 4, false⟩, ⟨0, 0, 2, 4, false⟩, ⟨0, 0, 2, 4, false⟩,
          ⟨0, 0, 2, 4, false⟩] [16] [false, false, false, false] [3, 1, 0, 2]
      = .ok (reference_assignment
          [⟨0, 0, 2, 4, false⟩, ⟨0, 0, 2, 4, false⟩, ⟨0, 0, 2, 4, false⟩,
            ⟨0, 0, 2, 4, false⟩] [16] [false, false, false, false]
          [3, 1, 0, 2]) :=
  compute_bucket_assignment_matches_reference
    [⟨0, 0, 2, 4, false⟩, ⟨0, 0, 2, 4, false⟩, ⟨0, 0, 2, 4, false⟩,
      ⟨0, 0, 2, 4, false⟩] [16] [false, false, false, false] [3, 1, 0, 2]
    (by decide) (by decide) (Or.inr rfl) (by decide)

end CBA

namespace Red

/-- The failure modes of `Reducer::mark_variable_ready`: the range checks
at reducer.cpp:475-478, and the two `TORCH_CHECK`s of the
`replica.pending == 0` branch (reducer.cpp:508-522).  The first of those
fires when `has_marked_unused_parameters_` is false (its message adds the
"incorrect unused parameter detection" cause); the second fires when it is
true — so a double mark always fails. -/
inductive MarkError where
  | outOfRangeReplica
  | outOfRangeVariable
  | markedTwiceDetection
  | markedTwice
deriving DecidableEq, Repr

/-- `BucketReplica` restricted to what the readiness machine touches: the
variables of this bucket slot (by index) and the pending countdown.
Gradient contents are modelled separately (`DenseReady`, `BK`). -/
structure BucketReplicaR where
  vars : List Nat   -- `variables` in the C++ struct (a reserved word here)
  pending : Nat
deriving DecidableEq, Repr, Inhabited

/-- `Bucket` restricted to the readiness machine. -/
structure BucketR where
  replicas : List BucketReplicaR
  variableIndices : List Nat
  pending : Nat
deriving DecidableEq, Repr, Inhabited

/-- The Reducer state the readiness machine reads and writes.  `launches`
is the observation sequence: the indices of buckets whose collective
(`process_group_->allreduce` or `comm_hook_->runHook`,
reducer.cpp:605-612) has been kicked off, in launch order.  `funcMap`
models `func_` (gradient-accumulator node id ↦ VariableIndex); the
iteration order of the C++ `unordered_map` is unspecified and is
determinized as list order. -/
structure ReducerS where
  replicaCount : Nat
  buckets : List BucketR
  variableLocators : List (Nat × Nat)
  nextBucket : Nat
  launches : List Nat
  requireFinalize : Bool
  expectAutogradHooks : Bool
  hasMarkedUnused : Bool
  unusedParams : List (Nat × Nat)
  findUnusedParameters : Bool
  funcMap : List (Nat × (Nat × Nat))
deriving DecidableEq, Repr

/-- The while loop of `mark_bucket_ready` (reducer.cpp:588-613) over the
per-bucket pending counters: launch and advance while the bucket at
`next_bucket_` has pending 0. -/
def markBucketLoop (bp : List Nat) (nb : Nat) (launches : List Nat) :
    Nat × List Nat :=
  if _h : nb < bp.length ∧ bp.getD nb 1 = 0 then
    markBucketLoop bp (nb + 1) (launches ++ [nb])
  else (nb, launches)
termination_by bp.length - nb
decreasing_by omega

/-- `Reducer::mark_bucket_ready` (reducer.cpp:576-614).  The
`TORCH_INTERNAL_ASSERT(bucket_index >= next_bucket_)` holds on every
reachable call; an out-of-turn bucket is deferred. -/
def mark_bucket_ready (bi : Nat) (s : ReducerS) : ReducerS :=
  if bi > s.nextBucket then s
  else
    let res := markBucketLoop (s.buckets.map (fun b => b.pending))
      s.nextBucket s.launches
    { s with nextBucket := res.1, launches := res.2 }

/-- `Reducer::mark_variable_ready` (reducer.cpp:472-573), restricted to
the readiness bookkeeping: range checks, `require_finalize_ := true`, the
double-mark check, the pending countdowns, and the in-order kick-off.
`backward_stats_` stamping is telemetry and not modelled; the calls to
`mark_variable_ready_sparse`/`mark_variable_ready_dense` move gradient
data only (modelled in `DenseReady`) and do not touch the counters; the
finalize-callback enqueue at reducer.cpp:547-572 is outside the claims. -/
def mark_variable_ready (idx : Nat × Nat) (s : ReducerS) :
    Except MarkError ReducerS :=
  if ¬ idx.1 < s.replicaCount then .error .outOfRangeReplica
  else if ¬ idx.2 < s.variableLocators.length then .error .outOfRangeVariable
  else
    let s1 := { s with requireFinalize := true }
    let bi := (s1.variableLocators.getD idx.2 (0, 0)).1
    let bucket := s1.buckets.getD bi default
    let replica := bucket.replicas.getD idx.1 default
    if replica.pending = 0 then
      -- reducer.cpp:508: fails when has_marked_unused_parameters_ is false
      if s1.hasMarkedUnused = false then .error .markedTwiceDetection
      -- reducer.cpp:522: fails when has_marked_unused_parameters_ is true
      else .error .markedTwice
    else
      let replica2 := { replica with pending := replica.pending - 1 }
      if replica2.pending = 0 then
        let bucket2 := { bucket with
          replicas := bucket.replicas.set idx.1 replica2
          pending := bucket.pending - 1 }
        let s2 := { s1 with buckets := s1.buckets.set bi bucket2 }
        if bucket2.pending = 0 then .ok (mark_bucket_ready bi s2)
        else .ok s2
      else
        let bucket2 :=
          { bucket with replicas := bucket.replicas.set idx.1 replica2 }
        .ok { s1 with buckets := s1.buckets.set bi bucket2 }

/-- Running a sequence of `mark_variable_ready` calls (one hook firing
per element, serialized under the Reducer mutex). -/
def markAll : List (Nat × Nat) → ReducerS → Except MarkError ReducerS
  | [], s => .ok s
  | m :: rest, s =>
      match mark_variable_ready m s with
      | .error e => .error e
      | .ok s2 => markAll rest s2

/-- C1 (amended): a call to `mark_variable_ready` that finds the located
bucket replica's pending counter already 0 always fails — when
`has_marked_unused_parameters_` is false the error additionally cites
incorrect unused-parameter detection, and when it is true the call fails
with the generic double-mark error; there is no accepted double-mark
path, not even for pre-marked unused parameters. -/
theorem mark_variable_ready_double_mark_always_fails
    (s : ReducerS) (r v : Nat)
    (hr : r < s.replicaCount) (hv : v < s.variableLocators.length)
    (hp : ((s.buckets.getD (s.variableLocators.getD v (0, 0)).1
        default).replicas.getD r default).pending = 0) :
    mark_variable_ready (r, v) s
      = .error (if s.hasMarkedUnused then .markedTwice
                else .markedTwiceDetection) := by
  simp only [mark_variable_ready]
  dsimp only
  rw [if_neg (by simp [hr]), if_neg (by simp [hv]), if_pos hp]
  cases hm : s.hasMarkedUnused <;> simp [hm]

/-- Witness for the amended C1 at a concrete state: single replica,
single singleton bucket, pending already 0, unused parameters not yet
pre-marked. -/
theorem mark_variable_ready_double_mark_always_fails_witness :
    mark_variable_ready (0, 0)
      ({ replicaCount := 1
         buckets := [⟨[⟨[0], 0⟩], [0], 0⟩]
         variableLocators := [(0, 0)]
         nextBucket := 1
         launches := [0]
         requireFinalize := true
         expectAutogradHooks := true
         hasMarkedUnused := false
         unusedParams := []
         findUnusedParameters := false
         funcMap := [] } : ReducerS)
      = .error .markedTwiceDetection :=
  mark_variable_ready_double_mark_always_fails _ 0 0
    (by decide) (by decide) (by decide)

/-- C1 counterexample: `has_marked_unused_parameters_` is true and
variable 0 is a pre-marked unused parameter whose replica pending is
already 0 (exactly the situation the claim calls the legal double-mark
path), yet the call fails: reducer.cpp:522 raises whenever
`has_marked_unused_parameters_` is true, and no check against
`unused_parameters_` exists. -/
theorem mark_variable_ready_premarked_double_mark_still_fails :
    mark_variable_ready (0, 0)
      ({ replicaCount := 1
         buckets := [⟨[⟨[0], 0⟩], [0], 0⟩]
         variableLocators := [(0, 0)]
         nextBucket := 1
         launches := [0]
         requireFinalize := true
         expectAutogradHooks := true
         hasMarkedUnused := true
         unusedParams := [(0, 0)]
         findUnusedParameters := true
         funcMap := [] } : ReducerS)
      = .error .markedTwice := rfl

/-- The autograd graph as `prepare_for_backward` sees it: nodes are
numeric ids, `edges` maps a node to the targets of its `next_edges()`
(null edges omitted), `outputs` holds the `grad_fn` ids of the model
outputs (outputs without a grad_fn omitted, reducer.cpp:889-894). -/
structure AutogradGraph where
  edges : List (Nat × List Nat)
  outputs : List Nat
deriving DecidableEq, Repr

def lookupEdges : List (Nat × List Nat) → Nat → List Nat
  | [], _ => []
  | (k, vs) :: rest, n => if k = n then vs else lookupEdges rest n

/-- The seen-set stack traversal at reducer.cpp:897-908.  The queue is
kept reversed so the C++ `push_back`/`pop_back` become cons and head-pop.
`fuel` bounds the iteration count; after seeding, a node is pushed only
when freshly inserted into `seen`, so the fuel chosen in
`unusedFromGraph` always suffices. -/
def traverse (edges : List (Nat × List Nat)) :
    Nat → List Nat → List Nat → List Nat
  | 0, _, seen => seen
  | _ + 1, [], seen => seen
  | fuel + 1, fn :: queue, seen =>
      let step := (lookupEdges edges fn).foldl
        (fun (sq : List Nat × List Nat) n =>
          if n ∈ sq.1 then sq else (sq.1 ++ [n], n :: sq.2)) (seen, queue)
      traverse edges fuel step.2 step.1

/-- reducer.cpp:911-919: the accumulator functions of `func_` that do not
appear in the traversed graph are the unused parameters. -/
def unusedFromGraph (funcMap : List (Nat × (Nat × Nat)))
    (g : AutogradGraph) : List (Nat × Nat) :=
  let fuel := g.outputs.length
    + (g.edges.map (fun kv => kv.2.length)).sum + 1
  let seen := traverse g.edges fuel g.outputs.reverse []
  (funcMap.filter (fun kv => !(seen.contains kv.1))).map (fun kv => kv.2)

/-- `Reducer::prepare_for_backward` (reducer.cpp:835-920): fail fast when
the previous iteration never finalized (before any mutation); otherwise
reset the per-iteration accounting and, when unused-parameter detection
is on, walk the autograd graph to collect the unused parameters.
`backward_stats_base_` stamping is telemetry and not modelled. -/
def prepare_for_backward (g : AutogradGraph) (s : ReducerS) :
    Except Unit ReducerS :=
  if s.requireFinalize then .error ()
  else
    let s2 := { s with
      expectAutogradHooks := true
      nextBucket := 0
      buckets := s.buckets.map (fun b =>
        { b with
          replicas := b.replicas.map (fun rep =>
            { rep with pending := rep.vars.length })
          pending := b.replicas.length })
      hasMarkedUnused := false
      unusedParams := [] }
    if ¬ s2.findUnusedParameters then .ok s2
    else .ok { s2 with unusedParams := unusedFromGraph s2.funcMap g }

/-- C8 (amended): `prepare_for_backward` fails, before any state change,
whenever `require_finalize_` is still true; otherwise it sets
`expect_autograd_hooks_`, resets `next_bucket_` to 0, sets every
replica's pending to its variable count and every bucket's pending to its
replica count, clears `has_marked_unused_parameters_`, and resets
`unused_parameters_` — which is then repopulated from the autograd-graph
walk when `find_unused_parameters_` is true (and stays empty when it is
false); the result never depends on the incoming `unused_parameters_`. -/
theorem prepare_for_backward_spec (g : AutogradGraph) (s : ReducerS) :
    (s.requireFinalize = true → prepare_for_backward g s = .error ())
      ∧ (s.requireFinalize = false →
          ∃ s2, prepare_for_backward g s = .ok s2
            ∧ s2.expectAutogradHooks = true
            ∧ s2.nextBucket = 0
            ∧ s2.buckets.length = s.buckets.length
            ∧ (∀ b, b < s.buckets.length →
                ((s2.buckets.getD b default).pending
                    = (s.buckets.getD b default).replicas.length
                  ∧ (s2.buckets.getD b default).replicas.length
                      = (s.buckets.getD b default).replicas.length
                  ∧ ∀ r, r < (s.buckets.getD b default).replicas.length →
                      ((s2.buckets.getD b default).replicas.getD r
                          default).pending
                        = ((s.buckets.getD b default).replicas.getD r
                            default).vars.length))
            ∧ s2.hasMarkedUnused = false
            ∧ s2.unusedParams
                = (if s.findUnusedParameters then
                    unusedFromGraph s.funcMap g
                  else [])) := by
  constructor
  · intro h
    simp [prepare_for_backward, h]
  · intro h
    rw [prepare_for_backward]
    rw [if_neg (by simp [h])]
    dsimp only
    by_cases hfu : s.findUnusedParameters
    · rw [if_neg (by simp [hfu])]
      refine ⟨_, rfl, rfl, rfl, by simp, ?_, rfl, by simp [hfu]⟩
      intro b hb
      have hb' : b < (s.buckets.map (fun bk =>
          ({ bk with
             replicas := bk.replicas.map (fun rep =>
               { rep with pending := rep.vars.length })
             pending := bk.replicas.length } : BucketR))).length := by
        simpa using hb
      rw [List.getD_eq_getElem?_getD, List.getElem?_eq_getElem hb',
        List.getElem_map]
      rw [List.getD_eq_getElem?_getD (l := s.buckets),
        List.getElem?_eq_getElem hb]
      refine ⟨by simp, by simp, ?_⟩
      intro r hr
      simp only [Option.getD_some]
      have hr' : r < ((s.buckets[b]).replicas.map (fun rep =>
          ({ rep with pending := rep.vars.length } : BucketReplicaR))).length
          := by simpa using hr
      rw [List.getD_eq_getElem?_getD, List.getElem?_eq_getElem hr',
        List.getElem_map]
      simp [List.getD_eq_getElem?_getD,
        List.getElem?_eq_getElem
          (show r < (s.buckets[b]).replicas.length by simpa using hr)]
    · rw [if_pos (by simp [hfu])]
      refine ⟨_, rfl, rfl, rfl, by simp, ?_, rfl, by simp [hfu]⟩
      intro b hb
      have hb' : b < (s.buckets.map (fun bk =>
          ({ bk with
             replicas := bk.replicas.map (fun rep =>
               { rep with pending := rep.vars.length })
             pending := bk.replicas.length } : BucketR))).length := by
        simpa using hb
      rw [List.getD_eq_getElem?_getD, List.getElem?_eq_getElem hb',
        List.getElem_map]
      rw [List.getD_eq_getElem?_getD (l := s.buckets),
        List.getElem?_eq_getElem hb]
      refine ⟨by simp, by simp, ?_⟩
      intro r hr
      simp only [Option.getD_some]
      have hr' : r < ((s.buckets[b]).replicas.map (fun rep =>
          ({ rep with pending := rep.vars.length } : BucketReplicaR))).length
          := by simpa using hr
      rw [List.getD_eq_getElem?_getD, List.getElem?_eq_getElem hr',
        List.getElem_map]
      simp [List.getD_eq_getElem?_getD,
        List.getElem?_eq_getElem
          (show r < (s.buckets[b]).replicas.length by simpa using hr)]

/-- Example autograd graph: output's grad_fn 1 reaches node 2 and the
accumulator node 7; accumulator node 5 is unreachable. -/
def pfbGraphEx : AutogradGraph := ⟨[(1, [2]), (2, [7])], [1]⟩

/-- Example Reducer state before `prepare_for_backward`: detection on,
accumulator 5 belongs to parameter (0, 1) and accumulator 7 to (0, 0). -/
def pfbStateEx : ReducerS :=
  { replicaCount := 1
    buckets := [⟨[⟨[0, 1], 0⟩], [0, 1], 0⟩]
    variableLocators := [(0, 0), (0, 1)]
    nextBucket := 1
    launches := [0]
    requireFinalize := false
    expectAutogradHooks := false
    hasMarkedUnused := true
    unusedParams := [(9, 9)]
    findUnusedParameters := true
    funcMap := [(5, (0, 1)), (7, (0, 0))] }

/-- Witness for the amended C8, discharging both implications at concrete
states. -/
theorem prepare_for_backward_spec_witness :
    (prepare_for_backward pfbGraphEx
        { pfbStateEx with requireFinalize := true } = .error ())
      ∧ (∃ s2, prepare_for_backward pfbGraphEx pfbStateEx = .ok s2
          ∧ s2.expectAutogradHooks = true
          ∧ s2.nextBucket = 0
          ∧ s2.buckets.length = pfbStateEx.buckets.length
          ∧ (∀ b, b < pfbStateEx.buckets.length →
              ((s2.buckets.getD b default).pending
                  = (pfbStateEx.buckets.getD b default).replicas.length
                ∧ (s2.buckets.getD b default).replicas.length
                    = (pfbStateEx.buckets.getD b default).replicas.length
                ∧ ∀ r,
                    r < (pfbStateEx.buckets.getD b default).replicas.length →
                    ((s2.buckets.getD b default).replicas.getD r
                        default).pending
                      = ((pfbStateEx.buckets.getD b default).replicas.getD r
                          default).vars.length))
          ∧ s2.hasMarkedUnused = false
          ∧ s2.unusedParams
              = (if pfbStateEx.findUnusedParameters then
                  unusedFromGraph pfbStateEx.funcMap pfbGraphEx
                else [])) :=
  ⟨(prepare_for_backward_spec pfbGraphEx
      { pfbStateEx with requireFinalize := true }).1 rfl,
   (prepare_for_backward_spec pfbGraphEx pfbStateEx).2 rfl⟩

/-- C8 counterexample: at `pfbStateEx` (unused-parameter detection on,
accumulator node 5 absent from the autograd graph), the state returned by
`prepare_for_backward` has `unused_parameters_ = [(0, 1)]`, not the empty
vector: the claim's "clears unused_parameters_" does not hold of the
post-state, because the graph walk repopulates it
(reducer.cpp:911-919). -/
theorem prepare_for_backward_repopulates_unused :
    ∃ s2, prepare_for_backward pfbGraphEx pfbStateEx = .ok s2
      ∧ s2.unusedParams = [(0, 1)] ∧ s2.unusedParams ≠ [] := by
  refine ⟨_, rfl, rfl, ?_⟩
  intro h
  simp [prepare_for_backward, pfbStateEx, pfbGraphEx, unusedFromGraph,
    traverse, lookupEdges] at h

theorem takeWhile_getD_true {p : Nat → Bool} :
    ∀ {l : List Nat} {i : Nat} (d : Nat),
      i < (l.takeWhile p).length → p (l.getD i d) = true := by
  intro l
  induction l with
  | nil => intro i d h; simp [List.takeWhile] at h
  | cons a l ih =>
      intro i d h
      cases hp : p a with
      | false => simp [List.takeWhile_cons, hp] at h
      | true =>
          rw [List.takeWhile_cons, if_pos hp] at h
          cases i with
          | zero => simpa [List.getD_cons_zero] using hp
          | succ i =>
              rw [List.getD_cons_succ]
              exact ih d (by simpa using h)

theorem takeWhile_len_le {p : Nat → Bool} (l : List Nat) :
    (l.takeWhile p).length ≤ l.length :=
  (List.takeWhile_prefix p).length_le

theorem takeWhile_len_le_of_false {p : Nat → Bool} {l : List Nat} {i : Nat}
    {d : Nat} (hi : i < l.length) (hf : p (l.getD i d) = false) :
    (l.takeWhile p).length ≤ i := by
  by_contra h
  rw [takeWhile_getD_true d (Nat.lt_of_not_le h)] at hf
  simp at hf

theorem takeWhile_len_ge {p : Nat → Bool} :
    ∀ {l : List Nat} {k : Nat} (d : Nat), k ≤ l.length →
      (∀ i, i < k → p (l.getD i d) = true) →
      k ≤ (l.takeWhile p).length := by
  intro l
  induction l with
  | nil => intro k d hk _; simpa using hk
  | cons a l ih =>
      intro k d hk hall
      cases k with
      | zero => exact Nat.zero_le _
      | succ k =>
          have hpa : p a = true := by
            have := hall 0 (Nat.succ_pos k)
            simpa [List.getD_cons_zero] using this
          rw [List.takeWhile_cons, if_pos hpa]
          simp only [List.length_cons, Nat.succ_le_succ_iff]
          exact ih d (by simpa using hk)
            (fun i hi => by
              have := hall (i + 1) (by omega)
              simpa [List.getD_cons_succ] using this)

theorem takeWhile_boundary {p : Nat → Bool} :
    ∀ {l : List Nat} (d : Nat), (l.takeWhile p).length < l.length →
      p (l.getD (l.takeWhile p).length d) = false := by
  intro l
  induction l with
  | nil => intro d h; simp at h
  | cons a l ih =>
      intro d h
      cases hp : p a with
      | false => simpa [List.takeWhile_cons, hp, List.getD_cons_zero] using hp
      | true =>
          rw [List.takeWhile_cons, if_pos hp] at h ⊢
          simp only [List.length_cons] at h ⊢
          rw [List.getD_cons_succ]
          exact ih d (by omega)

theorem takeWhile_len_eq {p : Nat → Bool} {l : List Nat} {k : Nat} (d : Nat)
    (hk : k ≤ l.length)
    (hall : ∀ i, i < k → p (l.getD i d) = true)
    (hstop : k = l.length ∨ (k < l.length ∧ p (l.getD k d) = false)) :
    (l.takeWhile p).length = k := by
  refine Nat.le_antisymm ?_ (takeWhile_len_ge d hk hall)
  rcases hstop with rfl | ⟨hlt, hf⟩
  · exact takeWhile_len_le l
  · exact takeWhile_len_le_of_false hlt hf

theorem markBucketLoop_spec (bp : List Nat) :
    ∀ (nb : Nat) (ls : List Nat),
      nb ≤ (bp.takeWhile (fun x => x == 0)).length →
      markBucketLoop bp nb ls
        = ((bp.takeWhile (fun x => x == 0)).length,
           ls ++ List.range' nb
             ((bp.takeWhile (fun x => x == 0)).length - nb)) := by
  have main : ∀ (fuel nb : Nat) (ls : List Nat), bp.length - nb ≤ fuel →
      nb ≤ (bp.takeWhile (fun x => x == 0)).length →
      markBucketLoop bp nb ls
        = ((bp.takeWhile (fun x => x == 0)).length,
           ls ++ List.range' nb
             ((bp.takeWhile (fun x => x == 0)).length - nb)) := by
    intro fuel
    induction fuel with
    | zero =>
        intro nb ls hfuel hnb
        have hlen : bp.length ≤ nb := by omega
        have heq : (bp.takeWhile (fun x => x == 0)).length = nb :=
          Nat.le_antisymm (Nat.le_trans (takeWhile_len_le bp) hlen) hnb
        rw [markBucketLoop, dif_neg (by omega)]
        rw [heq]
        simp
    | succ fuel ih =>
        intro nb ls hfuel hnb
        by_cases hc : nb < bp.length ∧ bp.getD nb 1 = 0
        · have hlt : nb < (bp.takeWhile (fun x => x == 0)).length := by
            rcases Nat.eq_or_lt_of_le hnb with heq | hlt
            · exfalso
              have hb := takeWhile_boundary (p := fun x => x == 0) (l := bp) 1
                (by omega)
              rw [← heq] at hb
              rw [hc.2] at hb
              simp at hb
            · exact hlt
          rw [markBucketLoop, dif_pos hc]
          rw [ih (nb + 1) (ls ++ [nb]) (by omega) hlt]
          have hr : List.range' nb
              ((bp.takeWhile (fun x => x == 0)).length - nb)
              = nb :: List.range' (nb + 1)
                  ((bp.takeWhile (fun x => x == 0)).length - (nb + 1)) := by
            have : (bp.takeWhile (fun x => x == 0)).length - nb
                = ((bp.takeWhile (fun x => x == 0)).length - (nb + 1)) + 1 := by
              omega
            rw [this, List.range'_succ]
          rw [hr]
          simp
        · have heq : (bp.takeWhile (fun x => x == 0)).length = nb := by
            rcases Nat.lt_or_ge nb bp.length with hlen | hlen
            · have hne : bp.getD nb 1 ≠ 0 := fun h0 => hc ⟨hlen, h0⟩
              refine Nat.le_antisymm ?_ hnb
              exact takeWhile_len_le_of_false hlen (by simpa using hne)
            · exact Nat.le_antisymm
                (Nat.le_trans (takeWhile_len_le bp) hlen) hnb
          rw [markBucketLoop, dif_neg hc, heq]
          simp
  intro nb ls
  exact main (bp.length - nb) nb ls (Nat.le_refl _)

theorem markBucketLoop_extends (bp : List Nat) :
    ∀ (nb : Nat) (ls : List Nat),
      nb ≤ (markBucketLoop bp nb ls).1
        ∧ ∃ suf, (markBucketLoop bp nb ls).2 = ls ++ suf := by
  have main : ∀ (fuel nb : Nat) (ls : List Nat), bp.length - nb ≤ fuel →
      nb ≤ (markBucketLoop bp nb ls).1
        ∧ ∃ suf, (markBucketLoop bp nb ls).2 = ls ++ suf := by
    intro fuel
    induction fuel with
    | zero =>
        intro nb ls hfuel
        rw [markBucketLoop, dif_neg (by omega)]
        exact ⟨Nat.le_refl _, [], by simp⟩
    | succ fuel ih =>
        intro nb ls hfuel
        by_cases hc : nb < bp.length ∧ bp.getD nb 1 = 0
        · rw [markBucketLoop, dif_pos hc]
          obtain ⟨h1, suf, h2⟩ := ih (nb + 1) (ls ++ [nb]) (by omega)
          exact ⟨by omega, [nb] ++ suf, by rw [h2]; simp⟩
        · rw [markBucketLoop, dif_neg hc]
          exact ⟨Nat.le_refl _, [], by simp⟩
  intro nb ls
  exact main (bp.length - nb) nb ls (Nat.le_refl _)

theorem mark_bucket_ready_extends {bi : Nat} {s : ReducerS} {n0 : Nat}
    {l0 : List Nat} (hn : s.nextBucket = n0) (hl : s.launches = l0) :
    n0 ≤ (mark_bucket_ready bi s).nextBucket
      ∧ ∃ suf, (mark_bucket_ready bi s).launches = l0 ++ suf := by
  subst hn
  subst hl
  rw [mark_bucket_ready]
  split
  · exact ⟨Nat.le_refl _, [], by simp⟩
  · exact markBucketLoop_extends _ s.nextBucket s.launches

theorem mark_variable_ready_monotone (m : Nat × Nat) (s s2 : ReducerS)
    (h : mark_variable_ready m s = .ok s2) :
    s.nextBucket ≤ s2.nextBucket
      ∧ ∃ suf, s2.launches = s.launches ++ suf := by
  simp only [mark_variable_ready] at h
  split at h
  · exact absurd h (by simp)
  split at h
  · exact absurd h (by simp)
  split at h
  · split at h <;> exact absurd h (by simp)
  · split at h
    · split at h
      · injection h with h
        rw [← h]
        exact mark_bucket_ready_extends rfl rfl
      · injection h with h
        rw [← h]
        exact ⟨Nat.le_refl _, [], by simp⟩
    · injection h with h
      rw [← h]
      exact ⟨Nat.le_refl _, [], by simp⟩

/-- Of bucket slot `I`, how many variables of replica `r` are still
unmarked after the marks in `done`. -/
def remainingIn (I : List Nat) (r : Nat) (done : List (Nat × Nat)) : Nat :=
  (I.filter (fun v => !(decide ((r, v) ∈ done)))).length

/-- Whether every variable of bucket slot `I` has been marked for
replica `r`. -/
def replicaComplete (I : List Nat) (r : Nat) (done : List (Nat × Nat)) :
    Bool :=
  I.all (fun v => decide ((r, v) ∈ done))

/-- How many of the `R` replicas of bucket slot `I` are still
incomplete. -/
def bucketPendingOf (R : Nat) (I : List Nat) (done : List (Nat × Nat)) :
    Nat :=
  R - ((List.range R).filter (fun r => replicaComplete I r done)).length

def pendingsOf (bI : List (List Nat)) (R : Nat) (done : List (Nat × Nat)) :
    List Nat :=
  bI.map (fun I => bucketPendingOf R I done)

/-- The length of the maximal prefix of buckets whose pending count is
0: the value of `next_bucket_` after all due kick-offs. -/
def readyPrefixOf (bI : List (List Nat)) (R : Nat)
    (done : List (Nat × Nat)) : Nat :=
  ((pendingsOf bI R done).takeWhile (fun x => x == 0)).length

theorem contains_append_single {done : List (Nat × Nat)} {p m : Nat × Nat} :
    (decide (p ∈ done ++ [m])) = (decide (p ∈ done) || decide (p = m)) := by
  simp [List.mem_append]

theorem remainingIn_pos {I : List Nat} {r : Nat} {done : List (Nat × Nat)}
    {v : Nat} (hv : v ∈ I) (hnew : (r, v) ∉ done) :
    0 < remainingIn I r done := by
  rw [remainingIn, List.length_pos]
  intro hnil
  have : v ∈ I.filter (fun v => !(decide ((r, v) ∈ done))) := by
    rw [List.mem_filter]
    exact ⟨hv, by simpa using hnew⟩
  rw [hnil] at this
  simp at this

theorem remainingIn_append_other {I : List Nat} {r : Nat}
    {done : List (Nat × Nat)} {r2 v2 : Nat}
    (h : r ≠ r2 ∨ v2 ∉ I) :
    remainingIn I r (done ++ [(r2, v2)]) = remainingIn I r done := by
  rw [remainingIn, remainingIn]
  congr 1
  apply List.filter_congr
  intro v hv
  rw [contains_append_single]
  have hne : (decide ((r, v) = (r2, v2))) = false := by
    rcases h with h | h
    · simp [h]
    · have : v ≠ v2 := fun hvv => h (hvv ▸ hv)
      simp [this]
  rw [hne]
  simp

theorem remainingIn_append_self {I : List Nat} {r : Nat}
    {done : List (Nat × Nat)} {v : Nat} (hnd : I.Nodup) (hv : v ∈ I)
    (hnew : (r, v) ∉ done) :
    remainingIn I r (done ++ [(r, v)]) = remainingIn I r done - 1 := by
  induction I with
  | nil => simp at hv
  | cons u I ih =>
      have hndI : I.Nodup := hnd.of_cons
      by_cases huv : u = v
      · subst huv
        have hunotin : u ∉ I := (List.nodup_cons.mp hnd).1
        have h1 : (!(decide ((r, u) ∈ done ++ [(r, u)]))) = false := by
          simp
        have h2 : (!(decide ((r, u) ∈ done))) = true := by
          simpa using hnew
        rw [remainingIn, remainingIn, List.filter_cons, List.filter_cons,
          h1, h2]
        simp only [Bool.false_eq_true, if_false, if_true, List.length_cons]
        have hcongr : I.filter
              (fun w => !(decide ((r, w) ∈ done ++ [(r, u)])))
            = I.filter (fun w => !(decide ((r, w) ∈ done))) := by
          apply List.filter_congr
          intro w hw
          have hwu : (decide ((r, w) = (r, u))) = false := by
            have : w ≠ u := fun hwu => hunotin (hwu ▸ hw)
            simp [this]
          rw [contains_append_single, hwu]
          simp
        rw [hcongr]
        omega
      · have hvI : v ∈ I := by
          rcases List.mem_cons.mp hv with h | h
          · exact absurd h.symm huv
          · exact h
        have hpos : 0 < remainingIn I r done := remainingIn_pos hvI hnew
        have hu : (!(decide ((r, u) ∈ done ++ [(r, v)])))
            = (!(decide ((r, u) ∈ done))) := by
          rw [contains_append_single]
          have : (decide ((r, u) = (r, v))) = false := by simp [huv]
          rw [this]
          simp
        rw [remainingIn, remainingIn, List.filter_cons, List.filter_cons, hu]
        have hrec := ih hndI hvI
        rw [remainingIn, remainingIn] at hrec
        cases hcu : (!(decide ((r, u) ∈ done))) with
        | true =>
            rw [if_pos rfl, if_pos rfl]
            simp only [List.length_cons]
            rw [remainingIn] at hpos
            omega
        | false =>
            rw [if_neg (by simp), if_neg (by simp)]
            exact hrec

theorem replicaComplete_iff {I : List Nat} {r : Nat}
    {done : List (Nat × Nat)} :
    replicaComplete I r done = true ↔ remainingIn I r done = 0 := by
  rw [replicaComplete, remainingIn, List.length_eq_zero,
    List.filter_eq_nil_iff, List.all_eq_true]
  constructor
  · intro h v hv
    simp [h v hv]
  · intro h v hv
    have := h v hv
    simpa using this

theorem replicaComplete_append_other {I : List Nat} {r : Nat}
    {done : List (Nat × Nat)} {r2 v2 : Nat} (h : r ≠ r2 ∨ v2 ∉ I) :
    replicaComplete I r (done ++ [(r2, v2)]) = replicaComplete I r done := by
  have hiff : (replicaComplete I r (done ++ [(r2, v2)]) = true)
      ↔ (replicaComplete I r done = true) := by
    rw [replicaComplete_iff, replicaComplete_iff,
      remainingIn_append_other h]
  cases h1 : replicaComplete I r (done ++ [(r2, v2)])
    <;> cases h2 : replicaComplete I r done <;> simp_all

theorem filter_length_lt_of_false {l : List Nat} {p : Nat → Bool} {r : Nat}
    (hr : r ∈ l) (hp : p r = false) : (l.filter p).length < l.length := by
  induction l with
  | nil => simp at hr
  | cons a l ih =>
      rcases List.mem_cons.mp hr with rfl | hr
      · rw [List.filter_cons, hp]
        simp only [Bool.false_eq_true, if_false, List.length_cons]
        exact Nat.lt_succ_of_le (List.length_filter_le p l)
      · rw [List.filter_cons]
        split
        · simpa using ih hr
        · exact Nat.lt_succ_of_lt (ih hr)

theorem filter_length_update {l : List Nat} (hnd : l.Nodup) {r : Nat}
    (hr : r ∈ l) {p q : Nat → Bool} (hagree : ∀ x ∈ l, x ≠ r → q x = p x)
    (hp : p r = false) (hq : q r = true) :
    (l.filter q).length = (l.filter p).length + 1 := by
  induction l with
  | nil => simp at hr
  | cons a l ih =>
      have hndl : l.Nodup := hnd.of_cons
      rcases List.mem_cons.mp hr with rfl | hrl
      · have hanotin : r ∉ l := (List.nodup_cons.mp hnd).1
        rw [List.filter_cons, List.filter_cons, hp, hq]
        simp only [if_true, Bool.false_eq_true, if_false, List.length_cons]
        have : l.filter q = l.filter p := by
          apply List.filter_congr
          intro x hx
          exact hagree x (List.mem_cons_of_mem _ hx)
            (fun hxa => hanotin (hxa ▸ hx))
        rw [this]
      · have haq : q a = p a :=
          hagree a (List.mem_cons_self a l)
            (fun hxa => absurd hrl (hxa ▸ (List.nodup_cons.mp hnd).1))
        rw [List.filter_cons, List.filter_cons, haq]
        have hrec := ih hndl hrl
          (fun x hx hxr => hagree x (List.mem_cons_of_mem _ hx) hxr)
        split
        · simp only [List.length_cons, hrec]
        · exact hrec

theorem bucketPendingOf_append_other {R : Nat} {I : List Nat}
    {done : List (Nat × Nat)} {r2 v2 : Nat} (h : v2 ∉ I) :
    bucketPendingOf R I (done ++ [(r2, v2)]) = bucketPendingOf R I done := by
  rw [bucketPendingOf, bucketPendingOf]
  congr 2
  apply List.filter_congr
  intro r _
  exact replicaComplete_append_other (Or.inr h)

theorem bucketPendingOf_append_incomplete {R : Nat} {I : List Nat}
    {done : List (Nat × Nat)} {r v : Nat} (hnd : I.Nodup) (hv : v ∈ I)
    (hnew : (r, v) ∉ done)
    (hrem : remainingIn I r (done ++ [(r, v)]) ≠ 0) :
    bucketPendingOf R I (done ++ [(r, v)]) = bucketPendingOf R I done := by
  have hrem0 : remainingIn I r done ≠ 0 := by
    have := remainingIn_append_self hnd hv hnew
    omega
  rw [bucketPendingOf, bucketPendingOf]
  congr 2
  apply List.filter_congr
  intro x _
  by_cases hxr : x = r
  · subst hxr
    have h1 : replicaComplete I x (done ++ [(x, v)]) = false := by
      cases hc : replicaComplete I x (done ++ [(x, v)])
      · rfl
      · exact absurd (replicaComplete_iff.mp hc) hrem
    have h2 : replicaComplete I x done = false := by
      cases hc : replicaComplete I x done
      · rfl
      · exact absurd (replicaComplete_iff.mp hc) hrem0
    rw [h1, h2]
  · exact replicaComplete_append_other (Or.inl hxr)

theorem bucketPendingOf_append_complete {R : Nat} {I : List Nat}
    {done : List (Nat × Nat)} {r v : Nat} (hnd : I.Nodup) (hv : v ∈ I)
    (hnew : (r, v) ∉ done) (hr : r < R)
    (hzero : remainingIn I r (done ++ [(r, v)]) = 0) :
    bucketPendingOf R I (done ++ [(r, v)]) = bucketPendingOf R I done - 1 := by
  have hq : replicaComplete I r (done ++ [(r, v)]) = true :=
    replicaComplete_iff.mpr hzero
  have hrempos : 0 < remainingIn I r done := remainingIn_pos hv hnew
  have hp : replicaComplete I r done = false := by
    cases hc : replicaComplete I r done
    · rfl
    · have := replicaComplete_iff.mp hc
      omega
  have hupd := filter_length_update (List.nodup_range R)
    (List.mem_range.mpr hr)
    (p := fun x => replicaComplete I x done)
    (q := fun x => replicaComplete I x (done ++ [(r, v)]))
    (fun x _ hxr => replicaComplete_append_other (Or.inl hxr))
    hp hq
  rw [bucketPendingOf, bucketPendingOf, hupd]
  omega

theorem bucketPendingOf_pos {R : Nat} {I : List Nat}
    {done : List (Nat × Nat)} {r : Nat} (hr : r < R)
    (hcf : replicaComplete I r done = false) :
    0 < bucketPendingOf R I done := by
  have := filter_length_lt_of_false
    (p := fun x => replicaComplete I x done) (List.mem_range.mpr hr) hcf
  rw [bucketPendingOf]
  simp only [List.length_range] at this
  omega

theorem pendingsOf_length (bI : List (List Nat)) (R : Nat)
    (done : List (Nat × Nat)) : (pendingsOf bI R done).length = bI.length := by
  simp [pendingsOf]

theorem pendingsOf_getD {bI : List (List Nat)} {R : Nat}
    {done : List (Nat × Nat)} {b : Nat} (d : Nat) (hb : b < bI.length) :
    (pendingsOf bI R done).getD b d
      = bucketPendingOf R (bI.getD b []) done := by
  rw [pendingsOf, List.getD_eq_getElem?_getD,
    List.getElem?_eq_getElem (by simpa using hb), List.getElem_map]
  rw [List.getD_eq_getElem?_getD, List.getElem?_eq_getElem hb]
  rfl

theorem readyPrefixOf_congr {bI : List (List Nat)} {R : Nat}
    {d1 d2 : List (Nat × Nat)}
    (h : ∀ I ∈ bI, bucketPendingOf R I d1 = bucketPendingOf R I d2) :
    readyPrefixOf bI R d1 = readyPrefixOf bI R d2 := by
  rw [readyPrefixOf, readyPrefixOf, pendingsOf, pendingsOf,
    List.map_congr_left h]

theorem getD_eq_getElem_of_lt {α : Type} {l : List α} {i : Nat} (d : α)
    (h : i < l.length) : l.getD i d = l[i] := by
  rw [List.getD_eq_getElem?_getD, List.getElem?_eq_getElem h]
  rfl

theorem getD_mem_of_lt {α : Type} {l : List α} {i : Nat} (d : α)
    (h : i < l.length) : l.getD i d ∈ l := by
  rw [getD_eq_getElem_of_lt d h]
  exact List.getElem_mem h

theorem getD_set_self {α : Type} {l : List α} {i : Nat} (x d : α)
    (h : i < l.length) : (l.set i x).getD i d = x := by
  simp [List.getD_eq_getElem?_getD, List.getElem?_set_self', h]

theorem getD_set_ne {α : Type} {l : List α} {i j : Nat} (x d : α)
    (h : i ≠ j) : (l.set i x).getD j d = l.getD j d := by
  simp [List.getD_eq_getElem?_getD, List.getElem?_set_ne, h]

theorem bucket_value_unique {bI : List (List Nat)}
    (hnd : bI.flatten.Nodup) {I J : List Nat} {v : Nat}
    (hI : I ∈ bI) (hJ : J ∈ bI) (hvI : v ∈ I) (hvJ : v ∈ J) : I = J := by
  by_contra hne
  have hpair := (List.nodup_flatten.mp hnd).2
  have hdisj : I.Disjoint J :=
    List.Pairwise.forall (fun a b h => h.symm) hpair hI hJ hne
  exact hdisj hvI hvJ

theorem not_mem_other_bucket {bI : List (List Nat)}
    (hnd : bI.flatten.Nodup) {b b0 v : Nat} (hb : b < bI.length)
    (hb0 : b0 < bI.length) (hne : b ≠ b0) (hv : v ∈ bI.getD b0 []) :
    v ∉ bI.getD b [] := by
  intro hv'
  have hpair := (List.nodup_flatten.mp hnd).2
  rw [List.pairwise_iff_getElem] at hpair
  rw [getD_eq_getElem_of_lt [] hb0] at hv
  rw [getD_eq_getElem_of_lt [] hb] at hv'
  rcases Nat.lt_or_gt_of_ne hne with h | h
  · exact hpair b b0 hb hb0 h hv' hv
  · exact hpair b0 b hb0 hb h hv hv'

theorem range_append_diff {a b : Nat} (h : a ≤ b) :
    List.range a ++ List.range' a (b - a) = List.range b := by
  rw [List.range_eq_range', List.range_eq_range']
  have := List.range'_append 0 a (b - a) 1
  simp only [Nat.mul_one, Nat.zero_add, Nat.one_mul] at this
  rw [this]
  congr 1
  omega

theorem readyPrefix_facts {bI : List (List Nat)} {R : Nat}
    {d1 d2 : List (Nat × Nat)} {b0 : Nat} (hb0 : b0 < bI.length)
    (hcongr : ∀ b, b < bI.length → b ≠ b0 →
      bucketPendingOf R (bI.getD b []) d2
        = bucketPendingOf R (bI.getD b []) d1)
    (hold : bucketPendingOf R (bI.getD b0 []) d1 ≠ 0) :
    readyPrefixOf bI R d1 ≤ b0
      ∧ (∀ i, i < readyPrefixOf bI R d1 →
          bucketPendingOf R (bI.getD i []) d2 = 0)
      ∧ (bucketPendingOf R (bI.getD b0 []) d2 ≠ 0 →
          readyPrefixOf bI R d2 = readyPrefixOf bI R d1)
      ∧ (readyPrefixOf bI R d1 < b0 →
          readyPrefixOf bI R d2 = readyPrefixOf bI R d1) := by
  have hPle : readyPrefixOf bI R d1 ≤ bI.length := by
    have := takeWhile_len_le (p := fun x => x == 0) (pendingsOf bI R d1)
    rw [pendingsOf_length] at this
    exact this
  have hzero1 : ∀ i, i < readyPrefixOf bI R d1 →
      bucketPendingOf R (bI.getD i []) d1 = 0 := by
    intro i hi
    have := takeWhile_getD_true (p := fun x => x == 0) 1 hi
    rw [pendingsOf_getD 1 (by omega)] at this
    simpa using this
  have hP_b0 : readyPrefixOf bI R d1 ≤ b0 := by
    by_contra hlt
    exact hold (hzero1 b0 (by omega))
  have hzero2 : ∀ i, i < readyPrefixOf bI R d1 →
      bucketPendingOf R (bI.getD i []) d2 = 0 := by
    intro i hi
    rw [hcongr i (by omega) (by omega)]
    exact hzero1 i hi
  have hbound : readyPrefixOf bI R d1 < bI.length →
      bucketPendingOf R (bI.getD (readyPrefixOf bI R d1) []) d1 ≠ 0 := by
    intro hlt
    have hb := takeWhile_boundary (p := fun x => x == 0)
      (l := pendingsOf bI R d1) 1 (by rw [pendingsOf_length]; exact hlt)
    have hrw : (List.takeWhile (fun x => x == 0)
        (pendingsOf bI R d1)).length = readyPrefixOf bI R d1 := rfl
    rw [hrw, pendingsOf_getD 1 hlt] at hb
    simpa using hb
  refine ⟨hP_b0, hzero2, ?_, ?_⟩
  · intro h2
    apply takeWhile_len_eq 1
    · rw [pendingsOf_length]; omega
    · intro i hi
      rw [pendingsOf_getD 1 (by omega)]
      have hz := hzero2 i hi
      simpa using hz
    · right
      constructor
      · rw [pendingsOf_length]; omega
      · rw [pendingsOf_getD 1 (by omega)]
        by_cases heq : readyPrefixOf bI R d1 = b0
        · rw [heq]
          simpa using h2
        · rw [hcongr _ (by omega) heq]
          have := hbound (by omega)
          simpa using this
  · intro hltb0
    apply takeWhile_len_eq 1
    · rw [pendingsOf_length]; omega
    · intro i hi
      rw [pendingsOf_getD 1 (by omega)]
      have hz := hzero2 i hi
      simpa using hz
    · right
      constructor
      · rw [pendingsOf_length]; omega
      · rw [pendingsOf_getD 1 (by omega)]
        rw [hcongr _ (by omega) (by omega)]
        have := hbound (by omega)
        simpa using this

theorem mark_variable_ready_ok_noComplete {s : ReducerS} {r v : Nat}
    (hr : r < s.replicaCount) (hv : v < s.variableLocators.length)
    {bi : Nat} (hbi : (s.variableLocators.getD v (0, 0)).1 = bi)
    {B : BucketR} (hB : s.buckets.getD bi default = B)
    {P : BucketReplicaR} (hP : B.replicas.getD r default = P)
    (hpend : ¬ P.pending = 0) (hpend2 : ¬ P.pending - 1 = 0) :
    mark_variable_ready (r, v) s
      = .ok { s with
          requireFinalize := true
          buckets := s.buckets.set bi
            { B with replicas :=
                B.replicas.set r { P with pending := P.pending - 1 } } } := by
  simp only [mark_variable_ready]
  dsimp only
  rw [if_neg (by simp [hr]), if_neg (by simp [hv]), hbi, hB, hP,
    if_neg hpend, if_neg hpend2]

theorem mark_variable_ready_ok_completeNoKick {s : ReducerS} {r v : Nat}
    (hr : r < s.replicaCount) (hv : v < s.variableLocators.length)
    {bi : Nat} (hbi : (s.variableLocators.getD v (0, 0)).1 = bi)
    {B : BucketR} (hB : s.buckets.getD bi default = B)
    {P : BucketReplicaR} (hP : B.replicas.getD r default = P)
    (hpend : ¬ P.pending = 0) (hpend2 : P.pending - 1 = 0)
    (hbp : ¬ B.pending - 1 = 0) :
    mark_variable_ready (r, v) s
      = .ok { s with
          requireFinalize := true
          buckets := s.buckets.set bi
            { B with
              replicas := B.replicas.set r { P with pending := P.pending - 1 }
              pending := B.pending - 1 } } := by
  simp only [mark_variable_ready]
  dsimp only
  rw [if_neg (by simp [hr]), if_neg (by simp [hv]), hbi, hB, hP,
    if_neg hpend, if_pos hpend2, if_neg hbp]

theorem mark_variable_ready_ok_completeKick {s : ReducerS} {r v : Nat}
    (hr : r < s.replicaCount) (hv : v < s.variableLocators.length)
    {bi : Nat} (hbi : (s.variableLocators.getD v (0, 0)).1 = bi)
    {B : BucketR} (hB : s.buckets.getD bi default = B)
    {P : BucketReplicaR} (hP : B.replicas.getD r default = P)
    (hpend : ¬ P.pending = 0) (hpend2 : P.pending - 1 = 0)
    (hbp : B.pending - 1 = 0) :
    mark_variable_ready (r, v) s
      = .ok (mark_bucket_ready bi
          { s with
            requireFinalize := true
            buckets := s.buckets.set bi
              { B with
                replicas :=
                  B.replicas.set r { P with pending := P.pending - 1 }
                pending := B.pending - 1 } }) := by
  simp only [mark_variable_ready]
  dsimp only
  rw [if_neg (by simp [hr]), if_neg (by simp [hv]), hbi, hB, hP,
    if_neg hpend, if_pos hpend2, if_pos hbp]

/-- The coupling invariant of the readiness machine: after the marks in
`done` (each a `(replica, variable)` pair, no repeats), the Reducer state
determined by bucket assignment `bI`, replica count `R` and locators
`locs` has its counters equal to the abstract counts, `next_bucket_` at
the ready prefix, and exactly the ready prefix launched, in order. -/
def MarkInv (bI : List (List Nat)) (R : Nat) (locs : List (Nat × Nat))
    (done : List (Nat × Nat)) (s : ReducerS) : Prop :=
  s.replicaCount = R
    ∧ s.variableLocators = locs
    ∧ s.buckets.length = bI.length
    ∧ (∀ b, b < bI.length →
        (s.buckets.getD b default).replicas.length = R
        ∧ (∀ q, q < R →
            (s.buckets.getD b default).replicas.getD q default
              = ⟨bI.getD b [], remainingIn (bI.getD b []) q done⟩)
        ∧ (s.buckets.getD b default).pending
            = bucketPendingOf R (bI.getD b []) done)
    ∧ s.nextBucket = readyPrefixOf bI R done
    ∧ s.launches = List.range (readyPrefixOf bI R done)

theorem MarkInv_update {bI : List (List Nat)} {R : Nat}
    {locs : List (Nat × Nat)} {done2 : List (Nat × Nat)} {s : ReducerS}
    (t : Bool) (bs2 : List BucketR)
    (hRC : s.replicaCount = R) (hLoc : s.variableLocators = locs)
    (hLen2 : bs2.length = bI.length)
    (hB2 : ∀ b, b < bI.length →
      (bs2.getD b default).replicas.length = R
      ∧ (∀ q, q < R →
          (bs2.getD b default).replicas.getD q default
            = ⟨bI.getD b [], remainingIn (bI.getD b []) q done2⟩)
      ∧ (bs2.getD b default).pending
          = bucketPendingOf R (bI.getD b []) done2)
    (hNB2 : s.nextBucket = readyPrefixOf bI R done2)
    (hLau2 : s.launches = List.range (readyPrefixOf bI R done2)) :
    MarkInv bI R locs done2
      { s with requireFinalize := t, buckets := bs2 } :=
  ⟨hRC, hLoc, hLen2, hB2, hNB2, hLau2⟩

theorem map_pending_eq {bs : List BucketR} {bI : List (List Nat)} {R : Nat}
    {done : List (Nat × Nat)} (hlen : bs.length = bI.length)
    (h : ∀ b, b < bI.length →
      (bs.getD b default).pending = bucketPendingOf R (bI.getD b []) done) :
    bs.map (fun b => b.pending) = pendingsOf bI R done := by
  apply List.ext_getElem
  · rw [List.length_map, pendingsOf_length, hlen]
  · intro i h1 h2
    have hi : i < bI.length := by rw [List.length_map] at h1; omega
    have hib : i < bs.length := by omega
    rw [List.getElem_map]
    have hx := h i hi
    rw [getD_eq_getElem_of_lt default hib, getD_eq_getElem_of_lt [] hi] at hx
    simp only [pendingsOf, List.getElem_map]
    exact hx

theorem markInv_after_kick {bI : List (List Nat)} {R : Nat}
    {locs : List (Nat × Nat)} {done2 : List (Nat × Nat)} {b0 P Q : Nat}
    {s2 : ReducerS}
    (h1 : s2.replicaCount = R) (h2 : s2.variableLocators = locs)
    (h3 : s2.buckets.length = bI.length)
    (hB : ∀ b, b < bI.length →
      (s2.buckets.getD b default).replicas.length = R
      ∧ (∀ q, q < R →
          (s2.buckets.getD b default).replicas.getD q default
            = ⟨bI.getD b [], remainingIn (bI.getD b []) q done2⟩)
      ∧ (s2.buckets.getD b default).pending
          = bucketPendingOf R (bI.getD b []) done2)
    (hQ : Q = readyPrefixOf bI R done2)
    (h4 : s2.nextBucket = P) (h5 : s2.launches = List.range P)
    (hdefer : P < b0 → Q = P)
    (hPQ : P ≤ Q) :
    MarkInv bI R locs done2 (mark_bucket_ready b0 s2) := by
  rw [mark_bucket_ready]
  by_cases hgt : b0 > s2.nextBucket
  · rw [if_pos hgt]
    rw [h4] at hgt
    have hQP : Q = P := hdefer hgt
    refine ⟨h1, h2, h3, hB, ?_, ?_⟩
    · rw [h4, ← hQ]; omega
    · rw [h5, ← hQ, hQP]
  · rw [if_neg hgt]
    have hmap : s2.buckets.map (fun b => b.pending) = pendingsOf bI R done2 :=
      map_pending_eq h3 (fun b hb => (hB b hb).2.2)
    rw [hmap, h4, h5]
    have hdef : ((pendingsOf bI R done2).takeWhile
        (fun x => x == 0)).length = readyPrefixOf bI R done2 := rfl
    rw [markBucketLoop_spec (pendingsOf bI R done2) P (List.range P)
      (by omega)]
    refine ⟨h1, h2, h3, hB, rfl, ?_⟩
    show List.range P ++ List.range' P (readyPrefixOf bI R done2 - P)
        = List.range (readyPrefixOf bI R done2)
    exact range_append_diff (by omega)

theorem mark_step {bI : List (List Nat)} {R : Nat} {locs : List (Nat × Nat)}
    {done : List (Nat × Nat)} {r v : Nat} {s : ReducerS}
    (hnd : bI.flatten.Nodup)
    (hloc : ∀ u, u < locs.length → (locs.getD u (0, 0)).1 < bI.length
      ∧ u ∈ bI.getD (locs.getD u (0, 0)).1 [])
    (hinv : MarkInv bI R locs done s)
    (hr : r < R) (hv : v < locs.length) (hnew : (r, v) ∉ done) :
    ∃ s2, mark_variable_ready (r, v) s = .ok s2
      ∧ MarkInv bI R locs (done ++ [(r, v)]) s2 := by
  obtain ⟨hRC, hLoc, hLen, hBkt, hNB, hLau⟩ := hinv
  have hloc2 := hloc v hv
  generalize hb0e : (locs.getD v (0, 0)).1 = b0 at hloc2
  obtain ⟨hb0, hvb0⟩ := hloc2
  have hI0mem : bI.getD b0 [] ∈ bI := getD_mem_of_lt [] hb0
  have hndI0 : (bI.getD b0 []).Nodup := (List.nodup_flatten.mp hnd).1 _ hI0mem
  obtain ⟨hRLen, hRep, hPend⟩ := hBkt b0 hb0
  have hrem_pos : 0 < remainingIn (bI.getD b0 []) r done :=
    remainingIn_pos hvb0 hnew
  have hrem_new : remainingIn (bI.getD b0 []) r (done ++ [(r, v)])
      = remainingIn (bI.getD b0 []) r done - 1 :=
    remainingIn_append_self hndI0 hvb0 hnew
  have hcomp_false : replicaComplete (bI.getD b0 []) r done = false := by
    cases hc : replicaComplete (bI.getD b0 []) r done
    · rfl
    · have := replicaComplete_iff.mp hc
      omega
  have hpend_pos : 0 < bucketPendingOf R (bI.getD b0 []) done :=
    bucketPendingOf_pos hr hcomp_false
  have hvr : v < s.variableLocators.length := by rw [hLoc]; exact hv
  have hrr : r < s.replicaCount := by rw [hRC]; exact hr
  have hbiE : (s.variableLocators.getD v (0, 0)).1 = b0 := by
    rw [hLoc, hb0e]
  have hrlt : r < (s.buckets.getD b0 default).replicas.length := by omega
  have hcongr : ∀ b, b < bI.length → b ≠ b0 →
      bucketPendingOf R (bI.getD b []) (done ++ [(r, v)])
        = bucketPendingOf R (bI.getD b []) done :=
    fun b hb hne =>
      bucketPendingOf_append_other (not_mem_other_bucket hnd hb hb0 hne hvb0)
  have hRepNew : ∀ q, q < R →
      ((s.buckets.getD b0 default).replicas.set r
        ⟨bI.getD b0 [], remainingIn (bI.getD b0 []) r done - 1⟩).getD q default
      = ⟨bI.getD b0 [], remainingIn (bI.getD b0 []) q (done ++ [(r, v)])⟩ := by
    intro q hq
    by_cases hqr : q = r
    · subst hqr
      rw [getD_set_self _ _ hrlt]
      congr 1
      omega
    · rw [getD_set_ne _ _ (fun h => hqr h.symm)]
      rw [hRep q hq, remainingIn_append_other (Or.inl hqr)]
  have hSetFacts : ∀ Bx : BucketR,
      Bx.replicas = (s.buckets.getD b0 default).replicas.set r
        ⟨bI.getD b0 [], remainingIn (bI.getD b0 []) r done - 1⟩ →
      Bx.pending = bucketPendingOf R (bI.getD b0 []) (done ++ [(r, v)]) →
      ∀ b, b < bI.length →
        ((s.buckets.set b0 Bx).getD b default).replicas.length = R
        ∧ (∀ q, q < R →
            ((s.buckets.set b0 Bx).getD b default).replicas.getD q default
              = ⟨bI.getD b [], remainingIn (bI.getD b []) q (done ++ [(r, v)])⟩)
        ∧ ((s.buckets.set b0 Bx).getD b default).pending
            = bucketPendingOf R (bI.getD b []) (done ++ [(r, v)]) := by
    intro Bx hXr hXp b hb
    by_cases hbb : b = b0
    · rw [hbb]
      have hb0lt : b0 < s.buckets.length := by omega
      rw [getD_set_self _ _ hb0lt, hXr, hXp]
      refine ⟨?_, hRepNew, rfl⟩
      rw [List.length_set]
      exact hRLen
    · have hgb : (s.buckets.set b0 Bx).getD b default
          = s.buckets.getD b default := getD_set_ne _ _ (fun h => hbb h.symm)
      rw [hgb]
      obtain ⟨e1, e2, e3⟩ := hBkt b hb
      refine ⟨e1, ?_, ?_⟩
      · intro q hq
        rw [e2 q hq, remainingIn_append_other
          (Or.inr (not_mem_other_bucket hnd hb hb0 hbb hvb0))]
      · rw [e3, hcongr b hb hbb]
  have hp1 : ¬ (⟨bI.getD b0 [], remainingIn (bI.getD b0 []) r done⟩ :
      BucketReplicaR).pending = 0 := by
    show ¬ remainingIn (bI.getD b0 []) r done = 0
    omega
  by_cases hA : remainingIn (bI.getD b0 []) r done - 1 = 0
  · -- the replica became complete
    have hzero : remainingIn (bI.getD b0 []) r (done ++ [(r, v)]) = 0 := by
      omega
    have hXpC : (s.buckets.getD b0 default).pending - 1
        = bucketPendingOf R (bI.getD b0 []) (done ++ [(r, v)]) := by
      rw [hPend, bucketPendingOf_append_complete hndI0 hvb0 hnew hr hzero]
    have hp2 : (⟨bI.getD b0 [], remainingIn (bI.getD b0 []) r done⟩ :
        BucketReplicaR).pending - 1 = 0 := by
      show remainingIn (bI.getD b0 []) r done - 1 = 0
      exact hA
    obtain ⟨hc1, hc2, hc3, hc4⟩ :=
      @readyPrefix_facts bI R done (done ++ [(r, v)]) b0 hb0 hcongr (by omega)
    by_cases hKick : bucketPendingOf R (bI.getD b0 []) done - 1 = 0
    · -- the bucket became complete: the in-order kick-off runs
      have hbp : (s.buckets.getD b0 default).pending - 1 = 0 := by
        rw [hPend]
        exact hKick
      refine ⟨_, mark_variable_ready_ok_completeKick hrr hvr hbiE rfl
        (hRep r hr) hp1 hp2 hbp, ?_⟩
      have hPQ : readyPrefixOf bI R done
          ≤ readyPrefixOf bI R (done ++ [(r, v)]) := by
        have hlen2 : readyPrefixOf bI R done
            ≤ (pendingsOf bI R (done ++ [(r, v)])).length := by
          rw [pendingsOf_length]
          omega
        have hall : ∀ i, i < readyPrefixOf bI R done →
            ((fun x => x == 0)
              ((pendingsOf bI R (done ++ [(r, v)])).getD i 1)) = true := by
          intro i hi
          rw [pendingsOf_getD 1 (by omega)]
          have := hc2 i hi
          simpa using this
        exact takeWhile_len_ge 1 hlen2 hall
      exact markInv_after_kick (Q := readyPrefixOf bI R (done ++ [(r, v)]))
        hRC hLoc (by rw [List.length_set]; exact hLen)
        (hSetFacts _ rfl hXpC) rfl hNB hLau hc4 hPQ
    · -- more replicas of this bucket still pending: no kick
      have hbp : ¬ (s.buckets.getD b0 default).pending - 1 = 0 := by
        rw [hPend]
        exact hKick
      refine ⟨_, mark_variable_ready_ok_completeNoKick hrr hvr hbiE rfl
        (hRep r hr) hp1 hp2 hbp, ?_⟩
      have hPP : readyPrefixOf bI R (done ++ [(r, v)])
          = readyPrefixOf bI R done := by
        apply hc3
        rw [bucketPendingOf_append_complete hndI0 hvb0 hnew hr hzero]
        omega
      exact MarkInv_update true _ hRC hLoc (by rw [List.length_set]; exact hLen)
        (hSetFacts _ rfl hXpC) (by rw [hNB, hPP]) (by rw [hLau, hPP])
  · -- the replica is still incomplete: only its counter moves
    have hp2 : ¬ (⟨bI.getD b0 [], remainingIn (bI.getD b0 []) r done⟩ :
        BucketReplicaR).pending - 1 = 0 := by
      show ¬ remainingIn (bI.getD b0 []) r done - 1 = 0
      exact hA
    have hremne : remainingIn (bI.getD b0 []) r (done ++ [(r, v)]) ≠ 0 := by
      omega
    have hXpN : (s.buckets.getD b0 default).pending
        = bucketPendingOf R (bI.getD b0 []) (done ++ [(r, v)]) := by
      rw [hPend, bucketPendingOf_append_incomplete hndI0 hvb0 hnew hremne]
    refine ⟨_, mark_variable_ready_ok_noComplete hrr hvr hbiE rfl
      (hRep r hr) hp1 hp2, ?_⟩
    have hPP : readyPrefixOf bI R (done ++ [(r, v)])
        = readyPrefixOf bI R done := by
      apply readyPrefixOf_congr
      intro I hI
      by_cases hvI : v ∈ I
      · have hII : I = bI.getD b0 [] :=
          bucket_value_unique hnd hI hI0mem hvI hvb0
        rw [hII, bucketPendingOf_append_incomplete hndI0 hvb0 hnew hremne]
      · rw [bucketPendingOf_append_other hvI]
    exact MarkInv_update true _ hRC hLoc (by rw [List.length_set]; exact hLen)
      (hSetFacts _ rfl hXpN) (by rw [hNB, hPP]) (by rw [hLau, hPP])

/-- Every `(replica, variable)` pair of an iteration: an interleaving in
which each variable of each replica is marked exactly once is a
permutation of this list. -/
def allPairs (R V : Nat) : List (Nat × Nat) :=
  (List.range R) ×ˢ (List.range V)

/-- The Reducer state at the start of an iteration, as established by
`initialize_buckets` (reducer.cpp:616-771: one replica per model replica,
each holding the bucket's variables) and the counter resets of
`prepare_for_backward` (reducer.cpp:843-859: `replica.pending =
replica.variables.size()`, `bucket.pending = bucket.replicas.size()`,
`next_bucket_ = 0`) — no collective launched yet. -/
def readyInit (bI : List (List Nat)) (R : Nat)
    (locs : List (Nat × Nat)) : ReducerS :=
  { replicaCount := R
    buckets := bI.map (fun I =>
      { replicas := (List.range R).map
          (fun _ => { vars := I, pending := I.length })
        variableIndices := I
        pending := R })
    variableLocators := locs
    nextBucket := 0
    launches := []
    requireFinalize := false
    expectAutogradHooks := true
    hasMarkedUnused := false
    unusedParams := []
    findUnusedParameters := false
    funcMap := [] }

theorem MarkInv_init {bI : List (List Nat)} {R : Nat}
    {locs : List (Nat × Nat)} (hR : 0 < R) (hne : ∀ I ∈ bI, I ≠ []) :
    MarkInv bI R locs [] (readyInit bI R locs) := by
  have hrcF : ∀ I, I ∈ bI → ∀ q : Nat, replicaComplete I q [] = false := by
    intro I hI q
    obtain ⟨a, ha⟩ := List.exists_mem_of_ne_nil _ (hne I hI)
    rw [replicaComplete, List.all_eq_false]
    exact ⟨a, ha, by simp⟩
  have hbp0 : ∀ I, I ∈ bI → bucketPendingOf R I [] = R := by
    intro I hI
    rw [bucketPendingOf]
    have hfil : (List.range R).filter
        (fun q => replicaComplete I q []) = [] :=
      List.filter_eq_nil_iff.mpr (fun q _ => by simp [hrcF I hI q])
    rw [hfil]
    simp
  have hrp0 : readyPrefixOf bI R [] = 0 := by
    rw [readyPrefixOf]
    apply takeWhile_len_eq 1 (Nat.zero_le _)
      (fun i hi => absurd hi (by omega))
    cases bI with
    | nil => left; simp [pendingsOf]
    | cons I rest =>
        right
        refine ⟨by simp [pendingsOf], ?_⟩
        rw [pendingsOf_getD 1 (by simp)]
        have hI0 : (I :: rest).getD 0 [] = I := rfl
        rw [hI0, hbp0 I (List.mem_cons_self _ _)]
        simp
        omega
  refine ⟨rfl, rfl, by simp [readyInit], ?_, hrp0.symm, by rw [hrp0]; rfl⟩
  intro b hb
  have hgb : (readyInit bI R locs).buckets.getD b default
      = { replicas := (List.range R).map
            (fun _ => ({ vars := bI.getD b [],
                         pending := (bI.getD b []).length } : BucketReplicaR)),
          variableIndices := bI.getD b [],
          pending := R } := by
    simp only [readyInit]
    rw [getD_eq_getElem_of_lt default (by simpa using hb), List.getElem_map,
      ← getD_eq_getElem_of_lt [] hb]
  rw [hgb]
  refine ⟨by simp, ?_, (hbp0 _ (getD_mem_of_lt [] hb)).symm⟩
  intro q hq
  show ((List.range R).map
      (fun _ => ({ vars := bI.getD b [],
                   pending := (bI.getD b []).length } : BucketReplicaR))).getD
        q default
    = _
  have hqm : q < ((List.range R).map
      (fun _ => ({ vars := bI.getD b [], pending := (bI.getD b []).length }
        : BucketReplicaR))).length := by simpa using hq
  rw [getD_eq_getElem_of_lt default hqm, List.getElem_map]
  have hrem : remainingIn (bI.getD b []) q [] = (bI.getD b []).length := by
    simp [remainingIn]
  rw [hrem]

theorem markAll_spec {bI : List (List Nat)} {R : Nat}
    {locs : List (Nat × Nat)} (hnd : bI.flatten.Nodup)
    (hloc : ∀ u, u < locs.length → (locs.getD u (0, 0)).1 < bI.length
      ∧ u ∈ bI.getD (locs.getD u (0, 0)).1 []) :
    ∀ (ms done : List (Nat × Nat)) (s : ReducerS),
      MarkInv bI R locs done s →
      (∀ m ∈ ms, m.1 < R ∧ m.2 < locs.length) →
      (done ++ ms).Nodup →
      ∃ s2, markAll ms s = .ok s2 ∧ MarkInv bI R locs (done ++ ms) s2 := by
  intro ms
  induction ms with
  | nil =>
      intro done s hinv _ _
      exact ⟨s, rfl, by simpa using hinv⟩
  | cons m rest ih =>
      intro done s hinv hmem hnodup
      obtain ⟨r, v⟩ := m
      have hfresh : (r, v) ∉ done := by
        intro hmemd
        have h := List.nodup_append.mp hnodup
        exact h.2.2 hmemd (List.mem_cons_self _ _)
      obtain ⟨hr, hv⟩ := hmem (r, v) (List.mem_cons_self _ _)
      obtain ⟨s2, hok, hinv2⟩ := mark_step hnd hloc hinv hr hv hfresh
      have hnodup2 : ((done ++ [(r, v)]) ++ rest).Nodup := by
        rw [List.append_assoc, List.singleton_append]
        exact hnodup
      obtain ⟨s3, hok3, hinv3⟩ := ih (done ++ [(r, v)]) s2 hinv2
        (fun m hm => hmem m (List.mem_cons_of_mem _ hm)) hnodup2
      refine ⟨s3, ?_, ?_⟩
      · rw [markAll, hok]
        exact hok3
      · rw [List.append_assoc, List.singleton_append] at hinv3
        exact hinv3

theorem readyPrefix_full {bI : List (List Nat)} {R V : Nat}
    {ms : List (Nat × Nat)}
    (hflat : bI.flatten.Perm (List.range V))
    (hms : ms.Perm (allPairs R V)) :
    readyPrefixOf bI R ms = bI.length := by
  have hall : ∀ b, b < bI.length →
      bucketPendingOf R (bI.getD b []) ms = 0 := by
    intro b hb
    rw [bucketPendingOf]
    have hfil : (List.range R).filter
        (fun q => replicaComplete (bI.getD b []) q ms) = List.range R := by
      apply List.filter_eq_self.mpr
      intro q hq
      rw [replicaComplete, List.all_eq_true]
      intro v hv
      have hvV : v < V := by
        have hmemf : v ∈ bI.flatten :=
          List.mem_flatten.mpr ⟨_, getD_mem_of_lt [] hb, hv⟩
        simpa using hflat.mem_iff.mp hmemf
      have hqR : q < R := List.mem_range.mp hq
      have hap : (q, v) ∈ allPairs R V := by
        rw [allPairs, List.mem_product]
        simp [hqR, hvV]
      simpa using hms.mem_iff.mpr hap
    rw [hfil]
    simp
  rw [readyPrefixOf]
  apply takeWhile_len_eq 1
  · rw [pendingsOf_length]
  · intro i hi
    rw [pendingsOf_getD 1 hi]
    simpa using hall i hi
  · left
    rw [pendingsOf_length]

/-- C3: within one iteration, `next_bucket_` never decreases across any
successful `mark_variable_ready` call and launches only extend; and in
every interleaving of `mark_variable_ready` calls in which each variable
of each replica is marked ready exactly once, starting from the
per-iteration initial state, every call succeeds and the collective
launches performed by `mark_bucket_ready` are exactly buckets
`0, 1, …, n-1` in ascending index order (each launched only once its
pending count reached 0, after all lower-indexed buckets). -/
theorem mark_variable_ready_launch_order
    (bI : List (List Nat)) (R V : Nat) (locs ms : List (Nat × Nat))
    (hflat : bI.flatten.Perm (List.range V))
    (hR : 0 < R) (hne : ∀ I ∈ bI, I ≠ [])
    (hlocs : locs.length = V)
    (hloc : ∀ u, u < locs.length → (locs.getD u (0, 0)).1 < bI.length
      ∧ u ∈ bI.getD (locs.getD u (0, 0)).1 [])
    (hms : ms.Perm (allPairs R V)) :
    (∀ m s s2, mark_variable_ready m s = .ok s2 →
        s.nextBucket ≤ s2.nextBucket
          ∧ ∃ suf, s2.launches = s.launches ++ suf)
      ∧ ∃ sf, markAll ms (readyInit bI R locs) = .ok sf
          ∧ sf.launches = List.range bI.length
          ∧ sf.nextBucket = bI.length := by
  refine ⟨mark_variable_ready_monotone, ?_⟩
  have hnd : bI.flatten.Nodup := hflat.nodup_iff.mpr (List.nodup_range V)
  have hmsmem : ∀ m ∈ ms, m.1 < R ∧ m.2 < locs.length := by
    intro m hm
    have hap : m ∈ allPairs R V := hms.mem_iff.mp hm
    obtain ⟨r, v⟩ := m
    rw [allPairs, List.mem_product] at hap
    simp only [List.mem_range] at hap
    exact ⟨hap.1, by rw [hlocs]; exact hap.2⟩
  have hmnd : (([] : List (Nat × Nat)) ++ ms).Nodup := by
    simp only [List.nil_append]
    refine hms.nodup_iff.mpr ?_
    rw [allPairs]
    exact (List.nodup_range R).product (List.nodup_range V)
  obtain ⟨sf, hok, hinv⟩ := markAll_spec hnd hloc ms [] (readyInit bI R locs)
    (MarkInv_init hR hne) hmsmem hmnd
  rw [List.nil_append] at hinv
  obtain ⟨_, _, _, _, hnb, hlau⟩ := hinv
  refine ⟨sf, hok, ?_, ?_⟩
  · rw [hlau, readyPrefix_full hflat hms]
  · rw [hnb, readyPrefix_full hflat hms]

theorem mark_variable_ready_launch_order_witness :
    ∃ sf, markAll [(0, 1), (0, 0)]
        (readyInit [[0], [1]] 1 [(0, 0), (1, 0)]) = .ok sf
      ∧ sf.launches = List.range 2
      ∧ sf.nextBucket = 2 :=
  (mark_variable_ready_launch_order [[0], [1]] 1 2 [(0, 0), (1, 0)]
    [(0, 1), (0, 0)] (by decide) (by decide) (by decide) (by decide)
    (by decide) (by decide)).2

end Red

namespace DenseReady

/-- A dense tensor as `mark_variable_ready_dense` sees it: its flat
element values (floating point determinized as exact rationals), dtype
and device (opaque tags). -/
structure DTensor where
  vals : List Rat
  dtype : Nat
  device : Nat
deriving DecidableEq, Repr

/-- The state `mark_variable_ready_dense` reads and writes for one
variable: the bucket view for this variable, the autograd `grad` field
(`none` = undefined), and whether `grad` currently aliases the bucket
view's storage (`grad.is_alias_of(bucket_view)`). When
`gradAliasesView` is true the two share storage, so an in-place update
of the view is visible through `grad` as well. -/
structure DenseState where
  bucketView : DTensor
  grad : Option DTensor
  gradAliasesView : Bool
deriving DecidableEq, Repr

/-- The `TORCH_CHECK`/`TORCH_INTERNAL_ASSERT`s of
`mark_variable_ready_dense` (reducer.cpp:332-339). -/
inductive DenseError where
  | typeMismatch
  | deviceMismatch
  | numelMismatch
deriving DecidableEq, Repr

/-- `Reducer::mark_variable_ready_dense` (reducer.cpp:309-387),
restricted to one variable's bucket view and grad.  `hook` is
`comm_hook_ != nullptr`; `W` is `process_group_->getSize()`.  The
`runGradCallbackForVariable` body: if grad is defined and does not alias
the view, check types, then either `at::native::mul_out(bucket_view,
grad, 1/W)` (no hook) or `bucket_view.copy_(grad)` (hook), and redirect
`grad = bucket_view`; if grad already aliases the view,
`bucket_view.div_(W)` only when no hook (visible through grad, which
shares the storage); if grad is undefined, `bucket_view.zero_()`. -/
def mark_variable_ready_dense (hook : Bool) (W : Nat) (st : DenseState) :
    Except DenseError DenseState :=
  if st.grad.isSome then
    if st.gradAliasesView then
      if hook then .ok st
      else
        .ok { st with
          bucketView := { st.bucketView with
            vals := st.bucketView.vals.map (fun x => x / (W : Rat)) },
          grad := some { st.bucketView with
            vals := st.bucketView.vals.map (fun x => x / (W : Rat)) } }
    else
      if ¬ (st.grad.getD ⟨[], 0, 0⟩).dtype = st.bucketView.dtype then
        .error .typeMismatch
      else if ¬ (st.grad.getD ⟨[], 0, 0⟩).device = st.bucketView.device then
        .error .deviceMismatch
      else if ¬ (st.grad.getD ⟨[], 0, 0⟩).vals.length
          = st.bucketView.vals.length then
        .error .numelMismatch
      else if hook then
        .ok { st with
          bucketView := { st.bucketView with
            vals := (st.grad.getD ⟨[], 0, 0⟩).vals },
          grad := some { st.bucketView with
            vals := (st.grad.getD ⟨[], 0, 0⟩).vals },
          gradAliasesView := true }
      else
        .ok { st with
          bucketView := { st.bucketView with
            vals := (st.grad.getD ⟨[], 0, 0⟩).vals.map
              (fun x => x * (1 / (W : Rat))) },
          grad := some { st.bucketView with
            vals := (st.grad.getD ⟨[], 0, 0⟩).vals.map
              (fun x => x * (1 / (W : Rat))) },
          gradAliasesView := true }
  else
    .ok { st with bucketView := { st.bucketView with
      vals := st.bucketView.vals.map (fun _ => 0) } }

theorem mul_one_div_map (l : List Rat) (W : Nat) :
    l.map (fun x => x * (1 / (W : Rat))) = l.map (fun x => x / (W : Rat)) := by
  have h : (fun x : Rat => x * (1 / (W : Rat)))
      = fun x : Rat => x / (W : Rat) := by
    funext x
    rw [mul_one_div]
  rw [h]

/-- C4: for a dense variable marked ready — if grad is defined and does
not alias its bucket view (types, device and numel matching): with no
communication hook the view receives grad divided by the world size and
grad is redirected to alias the view; with a hook the view receives a
plain copy of grad (no division) and grad is redirected.  If grad
already aliases the view, the view is divided in place by world size
exactly when no hook is registered.  If grad is undefined, the view is
zeroed and grad stays undefined. -/
theorem mark_variable_ready_dense_spec (hook : Bool) (W : Nat)
    (st : DenseState) :
    (st.grad = none →
      ∃ st2, mark_variable_ready_dense hook W st = .ok st2
        ∧ st2.bucketView.vals = st.bucketView.vals.map (fun _ => (0 : Rat))
        ∧ st2.grad = none)
    ∧ (st.grad.isSome = true → st.gradAliasesView = true →
        ∃ st2, mark_variable_ready_dense hook W st = .ok st2
          ∧ st2.bucketView.vals
              = (if hook then st.bucketView.vals
                 else st.bucketView.vals.map (fun x => x / (W : Rat)))
          ∧ st2.gradAliasesView = true)
    ∧ (∀ g, st.grad = some g → st.gradAliasesView = false →
        g.dtype = st.bucketView.dtype → g.device = st.bucketView.device →
        g.vals.length = st.bucketView.vals.length →
        ∃ st2, mark_variable_ready_dense hook W st = .ok st2
          ∧ st2.bucketView.vals
              = (if hook then g.vals
                 else g.vals.map (fun x => x / (W : Rat)))
          ∧ st2.gradAliasesView = true
          ∧ st2.grad = some st2.bucketView) := by
  refine ⟨?_, ?_, ?_⟩
  · intro hg
    rw [mark_variable_ready_dense, hg, if_neg (by simp)]
    exact ⟨_, rfl, rfl, rfl⟩
  · intro hg ha
    rw [mark_variable_ready_dense, if_pos hg, if_pos ha]
    cases hook with
    | true => exact ⟨st, by rw [if_pos rfl], by rw [if_pos rfl], ha⟩
    | false =>
        refine ⟨{ st with
            bucketView := { st.bucketView with
              vals := st.bucketView.vals.map (fun x => x / (W : Rat)) },
            grad := some { st.bucketView with
              vals := st.bucketView.vals.map (fun x => x / (W : Rat)) } },
          ?_, ?_, ?_⟩
        · rw [if_neg (by simp)]
        · rw [if_neg (by simp)]
        · exact ha
  · intro g hg hal hty hdev hlen
    rw [mark_variable_ready_dense, hg, if_pos (by simp), Option.getD_some,
      if_neg (by rw [hal]; simp), if_neg (by simp [hty]),
      if_neg (by simp [hdev]), if_neg (by simp [hlen])]
    cases hook with
    | true =>
        rw [if_pos rfl]
        exact ⟨_, rfl, by rw [if_pos rfl], rfl, rfl⟩
    | false =>
        rw [if_neg (by simp)]
        refine ⟨_, rfl, ?_, rfl, rfl⟩
        rw [if_neg (by simp)]
        exact mul_one_div_map g.vals W

/-- Concrete run of C4's no-hook, non-aliasing case: world size 4,
grad `[8, 2]`, view receives `[2, 1/2]` and grad aliases the view. -/
theorem mark_variable_ready_dense_spec_witness :
    ∃ st2, mark_variable_ready_dense false 4
        ⟨⟨[0, 0], 0, 0⟩, some ⟨[8, 2], 0, 0⟩, false⟩ = .ok st2
      ∧ st2.bucketView.vals
          = (if false then [(8 : Rat), 2]
             else ([(8 : Rat), 2]).map (fun x => x / (4 : Rat)))
      ∧ st2.gradAliasesView = true
      ∧ st2.grad = some st2.bucketView :=
  (mark_variable_ready_dense_spec false 4
      ⟨⟨[0, 0], 0, 0⟩, some ⟨[8, 2], 0, 0⟩, false⟩).2.2
    ⟨[8, 2], 0, 0⟩ rfl rfl rfl rfl rfl

end DenseReady

namespace BK

/-- A parameter tensor as `initialize_buckets` sees it: element count,
dtype and device (opaque tags). -/
structure BVar where
  numel : Nat
  dtype : Nat
  device : Nat
deriving DecidableEq, Repr, Inhabited

/-- A flat tensor handle: which storage it lives in, its offset there
and its length.  `contents` is allocated with offset 0; a bucket view
aliases the same storage at the variable's offset. -/
structure BTensor where
  storage : Nat
  offset : Nat
  length : Nat
deriving DecidableEq, Repr, Inhabited

/-- `BucketReplica` as built by `initialize_buckets`: per-variable
offsets and lengths, the flat `contents` tensor, and the bucket views
created by `initialize_bucket_views`. -/
structure BReplica where
  offsets : List Nat
  lengths : List Nat
  contents : BTensor
  bucketViews : List BTensor
deriving DecidableEq, Repr, Inhabited

/-- `Bucket` as built by `initialize_buckets`. -/
structure BBucket where
  replicas : List BReplica
  variableIndices : List Nat
  expectSparse : Bool
deriving DecidableEq, Repr, Inhabited

/-- The `TORCH_CHECK`s of `initialize_buckets`
(reducer.cpp:649-651, 659-663, 683-685, 692-700, 758-760). -/
inductive BKError where
  | emptyBucket
  | sparseMultiVar
  | outOfRange
  | deviceMismatch
  | dtypeMismatch
deriving DecidableEq, Repr

/-- The prefix sums of a length list starting at `off`: the offsets the
dense loop of `initialize_buckets` assigns. -/
def prefixSums (off : Nat) : List Nat → List Nat
  | [] => []
  | l :: ls => off :: prefixSums (off + l) ls

/-- The dense inner loop of `initialize_buckets` (reducer.cpp:683-707):
walk the bucket's variable indices, check the range and that device and
dtype agree with the options captured from the first variable, and
record each variable's offset and length while advancing the running
offset.  Returns the offsets, the lengths, and the final offset (the
numel of the `contents` tensor allocated right after). -/
def denseLoop (rep : List BVar) :
    List Nat → Option Nat → Option Nat → Nat →
    Except BKError (List Nat × List Nat × Nat)
  | [], _, _, off => .ok ([], [], off)
  | v :: rest, dev, dty, off =>
      if ¬ v < rep.length then .error .outOfRange
      else if dev.isSome ∧ ¬ (rep.getD v default).device = dev.getD 0 then
        .error .deviceMismatch
      else if dty.isSome ∧ ¬ (rep.getD v default).dtype = dty.getD 0 then
        .error .dtypeMismatch
      else
        match denseLoop rep rest (some (rep.getD v default).device)
            (some (rep.getD v default).dtype)
            (off + (rep.getD v default).numel) with
        | .error e => .error e
        | .ok (offs, lens, total) =>
            .ok (off :: offs, (rep.getD v default).numel :: lens, total)

/-- Building one dense bucket replica (reducer.cpp:680-745): the dense
loop, the `contents` allocation (`at::empty({offset}, options)` — a
fresh storage `sid` of length the final offset), and
`initialize_bucket_views` (reducer.cpp:777-822): for each variable a
view of the `contents` storage at its offset and length (`as_strided`
and `narrow().view()` both alias `contents`). -/
def makeReplica (rep : List BVar) (idxs : List Nat) (sid : Nat) :
    Except BKError BReplica :=
  match denseLoop rep idxs none none 0 with
  | .error e => .error e
  | .ok (offs, lens, total) =>
      .ok { offsets := offs, lengths := lens,
            contents := ⟨sid, 0, total⟩,
            bucketViews := List.zipWith
              (fun o l => (⟨sid, o, l⟩ : BTensor)) offs lens }

/-- The replica loop of `initialize_buckets` (reducer.cpp:668-752): a
sparse bucket replica holds just its single variable (no contents, no
views); a dense one is built by `makeReplica`, consuming a fresh
storage id. -/
def makeReplicas (idxs : List Nat) (sparse : Bool) :
    List (List BVar) → Nat → Except BKError (List BReplica × Nat)
  | [], sid => .ok ([], sid)
  | rep :: rest, sid =>
      if sparse then
        match makeReplicas idxs sparse rest sid with
        | .error e => .error e
        | .ok (rs, sid2) =>
            .ok ({ offsets := [], lengths := [],
                   contents := default, bucketViews := [] } :: rs, sid2)
      else
        match makeReplica rep idxs sid with
        | .error e => .error e
        | .ok r =>
            match makeReplicas idxs sparse rest (sid + 1) with
            | .error e => .error e
            | .ok (rs, sid2) => .ok (r :: rs, sid2)

/-- The locator-assignment loop of `initialize_buckets`
(reducer.cpp:755-763): variable `v` at intra-bucket position `i` of
bucket `b` gets `variable_locators_[v] = {b, i}`. -/
def assignLocs (locs : List (Nat × Nat)) (idxs : List Nat) (b i : Nat) :
    List (Nat × Nat) :=
  match idxs with
  | [] => locs
  | v :: rest => assignLocs (locs.set v (b, i)) rest b (i + 1)

/-- The bucket loop of `initialize_buckets` (reducer.cpp:645-767):
reject empty buckets, determine `expect_sparse_gradient` (a singleton
bucket inherits its variable's flag; a multi-variable bucket must have
no sparse-expecting variable), build the replicas, check the locator
range, assign locators, and recurse. -/
def bucketLoop (esg : List Bool) (replicas : List (List BVar)) :
    List (List Nat) → Nat → Nat → List (Nat × Nat) →
    Except BKError (List BBucket × List (Nat × Nat) × Nat)
  | [], _, sid, locs => .ok ([], locs, sid)
  | idxs :: rest, b, sid, locs =>
      if idxs.isEmpty then .error .emptyBucket
      else if ¬ idxs.length = 1
          ∧ ¬ idxs.all (fun v => !(esg.getD v false)) then
        .error .sparseMultiVar
      else
        match makeReplicas idxs
            (if idxs.length = 1 then esg.getD (idxs.getD 0 0) false
             else false) replicas sid with
        | .error e => .error e
        | .ok (rs, sid2) =>
            if ¬ idxs.all (fun v => v < locs.length) then .error .outOfRange
            else
              match bucketLoop esg replicas rest (b + 1) sid2
                  (assignLocs locs idxs b 0) with
              | .error e => .error e
              | .ok (bs, locs3, sid3) =>
                  .ok ({ replicas := rs, variableIndices := idxs,
                         expectSparse :=
                           if idxs.length = 1 then
                             esg.getD (idxs.getD 0 0) false
                           else false } :: bs, locs3, sid3)

/-- `Reducer::initialize_buckets` (reducer.cpp:616-771):
`variable_locators_` is resized to the parameter count (value-default
locators) and the bucket loop runs from bucket 0; fresh contents
storages are numbered from 0. -/
def initialize_buckets (esg : List Bool) (replicas : List (List BVar))
    (bis : List (List Nat)) :
    Except BKError (List BBucket × List (Nat × Nat)) :=
  match bucketLoop esg replicas bis 0 0
      (List.replicate (replicas.getD 0 []).length (0, 0)) with
  | .error e => .error e
  | .ok (bs, locs, _) => .ok (bs, locs)

theorem denseLoop_spec {rep : List BVar} :
    ∀ (l : List Nat) (dev dty : Option Nat) (off : Nat)
      {offs lens : List Nat} {total : Nat},
      denseLoop rep l dev dty off = .ok (offs, lens, total) →
      offs = prefixSums off lens ∧ total = off + lens.sum := by
  intro l
  induction l with
  | nil =>
      intro dev dty off offs lens total h
      rw [denseLoop] at h
      simp only [Except.ok.injEq, Prod.mk.injEq] at h
      obtain ⟨h1, h2, h3⟩ := h
      subst h1
      subst h2
      subst h3
      simp [prefixSums]
  | cons v rest ih =>
      intro dev dty off offs lens total h
      rw [denseLoop] at h
      split at h
      · exact absurd h (by simp)
      · split at h
        · exact absurd h (by simp)
        · split at h
          · exact absurd h (by simp)
          · split at h
            · exact absurd h (by simp)
            · rename_i offs2 lens2 total2 heq
              simp only [Except.ok.injEq, Prod.mk.injEq] at h
              obtain ⟨h1, h2, h3⟩ := h
              subst h1
              subst h2
              subst h3
              obtain ⟨ih1, ih2⟩ := ih _ _ _ heq
              rw [prefixSums]
              refine ⟨by rw [ih1], ?_⟩
              simp only [List.sum_cons]
              omega

theorem zipWith_view_storage {sid : Nat} :
    ∀ (offs lens : List Nat) (w : BTensor),
      w ∈ List.zipWith (fun o l => (⟨sid, o, l⟩ : BTensor)) offs lens →
      w.storage = sid := by
  intro offs
  induction offs with
  | nil => intro lens w hw; simp at hw
  | cons o os ih =>
      intro lens w hw
      cases lens with
      | nil => simp at hw
      | cons l ls =>
          rw [List.zipWith_cons_cons] at hw
          rcases List.mem_cons.mp hw with h | h
          · rw [h]
          · exact ih ls w h

theorem makeReplica_spec {rep : List BVar} {idxs : List Nat} {sid : Nat}
    {r : BReplica} (h : makeReplica rep idxs sid = .ok r) :
    r.lengths.sum = r.contents.length
      ∧ r.offsets = prefixSums 0 r.lengths
      ∧ ∀ w ∈ r.bucketViews, w.storage = r.contents.storage := by
  rw [makeReplica] at h
  split at h
  · exact absurd h (by simp)
  · rename_i offs lens total heq
    obtain ⟨h1, h2⟩ := denseLoop_spec _ _ _ _ heq
    simp only [Except.ok.injEq] at h
    subst h
    refine ⟨?_, h1, ?_⟩
    · show lens.sum = total
      omega
    · intro w hw
      exact zipWith_view_storage offs lens w hw

theorem makeReplicas_spec {idxs : List Nat} :
    ∀ (reps : List (List BVar)) (sid : Nat) {rs : List BReplica}
      {sid2 : Nat},
      makeReplicas idxs false reps sid = .ok (rs, sid2) →
      ∀ r ∈ rs, r.lengths.sum = r.contents.length
        ∧ r.offsets = prefixSums 0 r.lengths
        ∧ ∀ w ∈ r.bucketViews, w.storage = r.contents.storage := by
  intro reps
  induction reps with
  | nil =>
      intro sid rs sid2 h r hr
      rw [makeReplicas] at h
      simp only [Except.ok.injEq, Prod.mk.injEq] at h
      obtain ⟨h1, _⟩ := h
      subst h1
      simp at hr
  | cons rep rest ih =>
      intro sid rs sid2 h r hr
      rw [makeReplicas, if_neg (by simp)] at h
      split at h
      · exact absurd h (by simp)
      · rename_i r0 heq0
        split at h
        · exact absurd h (by simp)
        · rename_i rs2 sid4 heq2
          simp only [Except.ok.injEq, Prod.mk.injEq] at h
          obtain ⟨h1, _⟩ := h
          subst h1
          rcases List.mem_cons.mp hr with he | he
          · rw [he]
            exact makeReplica_spec heq0
          · exact ih _ heq2 r he

theorem assignLocs_length :
    ∀ (idxs : List Nat) (locs : List (Nat × Nat)) (b i : Nat),
      (assignLocs locs idxs b i).length = locs.length := by
  intro idxs
  induction idxs with
  | nil => intro locs b i; rw [assignLocs]
  | cons v rest ih =>
      intro locs b i
      rw [assignLocs, ih]
      simp

theorem assignLocs_getD_not_mem :
    ∀ (idxs : List Nat) (locs : List (Nat × Nat)) (b i : Nat)
      {v : Nat} {d : Nat × Nat}, v ∉ idxs →
      (assignLocs locs idxs b i).getD v d = locs.getD v d := by
  intro idxs
  induction idxs with
  | nil => intro locs b i v d _; rw [assignLocs]
  | cons u rest ih =>
      intro locs b i v d hv
      rw [assignLocs, ih _ _ _ (fun hm => hv (List.mem_cons_of_mem _ hm))]
      exact Red.getD_set_ne _ _
        (fun hm => hv (by rw [← hm]; exact List.mem_cons_self _ _))

theorem assignLocs_getD_mem :
    ∀ (idxs : List Nat) (locs : List (Nat × Nat)) (b i : Nat) {j : Nat},
      idxs.Nodup → j < idxs.length → idxs.getD j 0 < locs.length →
      (assignLocs locs idxs b i).getD (idxs.getD j 0) (0, 0) = (b, i + j) := by
  intro idxs
  induction idxs with
  | nil => intro locs b i j _ hj; simp at hj
  | cons u rest ih =>
      intro locs b i j hnd hj hlt
      rw [assignLocs]
      cases j with
      | zero =>
          rw [List.getD_cons_zero] at hlt ⊢
          rw [assignLocs_getD_not_mem rest _ b (i + 1)
            (List.nodup_cons.mp hnd).1]
          rw [Red.getD_set_self _ _ hlt]
          congr 1
      | succ j2 =>
          rw [List.getD_cons_succ] at hlt ⊢
          rw [ih _ b (i + 1) (List.nodup_cons.mp hnd).2
            (by simpa using hj) (by simpa using hlt)]
          congr 1
          omega

theorem bucketLoop_spec {esg : List Bool} {replicas : List (List BVar)} :
    ∀ (bis : List (List Nat)) (b sid : Nat) (locs : List (Nat × Nat))
      {bs : List BBucket} {locs3 : List (Nat × Nat)} {sid3 : Nat},
      bucketLoop esg replicas bis b sid locs = .ok (bs, locs3, sid3) →
      bs.length = bis.length
      ∧ locs3.length = locs.length
      ∧ (∀ (v : Nat) (d : Nat × Nat), v ∉ bis.flatten →
          locs3.getD v d = locs.getD v d)
      ∧ (bis.flatten.Nodup → ∀ j, j < bis.length →
          ∀ i, i < (bis.getD j []).length →
          (bis.getD j []).getD i 0 < locs.length →
          locs3.getD ((bis.getD j []).getD i 0) (0, 0) = (b + j, i))
      ∧ (∀ j, j < bis.length →
          (bs.getD j default).variableIndices = bis.getD j []
          ∧ (¬ (bs.getD j default).expectSparse = true →
              ∀ r ∈ (bs.getD j default).replicas,
                r.lengths.sum = r.contents.length
                ∧ r.offsets = prefixSums 0 r.lengths
                ∧ ∀ w ∈ r.bucketViews, w.storage = r.contents.storage)) := by
  intro bis
  induction bis with
  | nil =>
      intro b sid locs bs locs3 sid3 h
      rw [bucketLoop] at h
      simp only [Except.ok.injEq, Prod.mk.injEq] at h
      obtain ⟨h1, h2, _⟩ := h
      subst h1
      subst h2
      exact ⟨rfl, rfl, fun v d _ => rfl,
        fun _ j hj => by simp at hj, fun j hj => by simp at hj⟩
  | cons idxs rest ih =>
      intro b sid locs bs locs3 sid3 h
      rw [bucketLoop] at h
      split at h
      · exact absurd h (by simp)
      · split at h
        · exact absurd h (by simp)
        · split at h
          · exact absurd h (by simp)
          · rename_i rs sid2 heqR
            split at h
            · exact absurd h (by simp)
            · rename_i hrange
              split at h
              · exact absurd h (by simp)
              · rename_i bs2 locs2 sid4 heqB
                simp only [Except.ok.injEq, Prod.mk.injEq] at h
                obtain ⟨h1, h2, _⟩ := h
                subst h1
                subst h2
                obtain ⟨ihlen, ihloclen, ihuntouched, ihassigned, ihbuckets⟩ :=
                  ih (b + 1) sid2 (assignLocs locs idxs b 0) heqB
                refine ⟨by simp [ihlen], ?_, ?_, ?_, ?_⟩
                · rw [ihloclen, assignLocs_length]
                · intro v d hv
                  rw [List.flatten_cons] at hv
                  have hv1 : v ∉ idxs :=
                    fun hm => hv (List.mem_append.mpr (Or.inl hm))
                  have hv2 : v ∉ rest.flatten :=
                    fun hm => hv (List.mem_append.mpr (Or.inr hm))
                  rw [ihuntouched v d hv2, assignLocs_getD_not_mem _ _ _ _ hv1]
                · intro hndf j hj i hi hplt
                  rw [List.flatten_cons] at hndf
                  obtain ⟨hnd1, hnd2, hdisj⟩ := List.nodup_append.mp hndf
                  cases j with
                  | zero =>
                      rw [List.getD_cons_zero] at hi hplt ⊢
                      have hpmem : idxs.getD i 0 ∈ idxs :=
                        Red.getD_mem_of_lt 0 hi
                      have hpnot : idxs.getD i 0 ∉ rest.flatten :=
                        fun hm => hdisj hpmem hm
                      rw [ihuntouched _ _ hpnot,
                        assignLocs_getD_mem _ _ b 0 hnd1 hi hplt]
                      congr 1
                      omega
                  | succ j2 =>
                      rw [List.getD_cons_succ] at hi hplt ⊢
                      have := ihassigned hnd2 j2 (by simpa using hj) i hi
                        (by rw [assignLocs_length]; exact hplt)
                      rw [this]
                      congr 1
                      omega
                · intro j hj
                  cases j with
                  | zero =>
                      rw [List.getD_cons_zero, List.getD_cons_zero]
                      refine ⟨rfl, ?_⟩
                      intro hexp r hr
                      cases hsparse : (if idxs.length = 1 then
                          esg.getD (idxs.getD 0 0) false else false) with
                      | true => exact absurd hsparse hexp
                      | false =>
                          rw [hsparse] at heqR
                          exact makeReplicas_spec _ _ heqR r hr
                  | succ j2 =>
                      rw [List.getD_cons_succ, List.getD_cons_succ]
                      exact ihbuckets j2 (by simpa using hj)

/-- C6: after a successful `initialize_buckets(bucket_indices)` in
which every parameter index appears exactly once: every parameter `p`'s
`variable_locators_[p]` names an existing bucket whose
`variable_indices` holds `p` at position `intra_bucket_index`; on every
dense bucket replica the offsets are the prefix sums of the lengths and
the lengths sum to `contents.numel()`; and every entry of
`bucket_views` aliases the storage of that replica's `contents`. -/
theorem initialize_buckets_spec
    (esg : List Bool) (replicas : List (List BVar)) (bis : List (List Nat))
    (bs : List BBucket) (locs : List (Nat × Nat))
    (hcover : bis.flatten.Perm
      (List.range (replicas.getD 0 []).length))
    (h : initialize_buckets esg replicas bis = .ok (bs, locs)) :
    (∀ p, p < (replicas.getD 0 []).length →
        (locs.getD p (0, 0)).1 < bs.length
        ∧ (locs.getD p (0, 0)).2
            < (bs.getD (locs.getD p (0, 0)).1
                default).variableIndices.length
        ∧ (bs.getD (locs.getD p (0, 0)).1 default).variableIndices.getD
            (locs.getD p (0, 0)).2 0 = p)
    ∧ (∀ bk ∈ bs, ¬ bk.expectSparse = true → ∀ r ∈ bk.replicas,
        r.lengths.sum = r.contents.length
        ∧ r.offsets = prefixSums 0 r.lengths
        ∧ ∀ w ∈ r.bucketViews, w.storage = r.contents.storage) := by
  rw [initialize_buckets] at h
  split at h
  · exact absurd h (by simp)
  · rename_i bs0 locs0 sid0 heq
    simp only [Except.ok.injEq, Prod.mk.injEq] at h
    obtain ⟨h1, h2⟩ := h
    subst h1
    subst h2
    obtain ⟨hlen, hloclen, huntouched, hassigned, hbuckets⟩ :=
      bucketLoop_spec _ _ _ _ heq
    have hnd : bis.flatten.Nodup := hcover.nodup_iff.mpr (List.nodup_range _)
    constructor
    · intro p hp
      have hpmem : p ∈ bis.flatten :=
        hcover.mem_iff.mpr (List.mem_range.mpr hp)
      obtain ⟨I, hI, hpI⟩ := List.mem_flatten.mp hpmem
      obtain ⟨j, hj, hIj⟩ := List.mem_iff_getElem.mp hI
      obtain ⟨i, hi, hpi⟩ := List.mem_iff_getElem.mp hpI
      have hjD : bis.getD j [] = I := by
        rw [Red.getD_eq_getElem_of_lt [] hj, hIj]
      have hpD : (bis.getD j []).getD i 0 = p := by
        rw [hjD, Red.getD_eq_getElem_of_lt 0 hi, hpi]
      have hplen : (bis.getD j []).getD i 0
          < (List.replicate (replicas.getD 0 []).length
              ((0 : Nat), (0 : Nat))).length := by
        rw [hpD]
        simpa using hp
      have hloc := hassigned hnd j hj i (by rw [hjD]; exact hi) hplen
      rw [hpD] at hloc
      rw [hloc]
      simp only [Nat.zero_add]
      refine ⟨?_, ?_, ?_⟩
      · show j < bs0.length
        rw [hlen]
        exact hj
      · show i < (bs0.getD j default).variableIndices.length
        rw [(hbuckets j hj).1, hjD]
        exact hi
      · show (bs0.getD j default).variableIndices.getD i 0 = p
        rw [(hbuckets j hj).1]
        exact hpD
    · intro bk hbk hexp r hr
      obtain ⟨j, hj, hbj⟩ := List.mem_iff_getElem.mp hbk
      have hbD : bs0.getD j default = bk := by
        rw [Red.getD_eq_getElem_of_lt default hj, hbj]
      have hfact := (hbuckets j (by rw [← hlen]; exact hj)).2
      rw [hbD] at hfact
      exact hfact hexp r hr

/-- The buckets `initialize_buckets` returns on the witness input:
params of numels `[2, 3, 1]`, bucket indices `[[2, 0], [1]]`. -/
def bkExBs : List BBucket :=
  [{ replicas := [{ offsets := [0, 1], lengths := [1, 2],
                    contents := ⟨0, 0, 3⟩,
                    bucketViews := [⟨0, 0, 1⟩, ⟨0, 1, 2⟩] }],
     variableIndices := [2, 0], expectSparse := false },
   { replicas := [{ offsets := [0], lengths := [3],
                    contents := ⟨1, 0, 3⟩,
                    bucketViews := [⟨1, 0, 3⟩] }],
     variableIndices := [1], expectSparse := false }]

/-- The locators `initialize_buckets` returns on the witness input. -/
def bkExLocs : List (Nat × Nat) := [(0, 1), (1, 0), (0, 0)]

theorem initialize_buckets_spec_witness :
    (∀ p, p < 3 →
        (bkExLocs.getD p (0, 0)).1 < bkExBs.length
        ∧ (bkExLocs.getD p (0, 0)).2
            < (bkExBs.getD (bkExLocs.getD p (0, 0)).1
                default).variableIndices.length
        ∧ (bkExBs.getD (bkExLocs.getD p (0, 0)).1
            default).variableIndices.getD (bkExLocs.getD p (0, 0)).2 0 = p)
    ∧ (∀ bk ∈ bkExBs, ¬ bk.expectSparse = true → ∀ r ∈ bk.replicas,
        r.lengths.sum = r.contents.length
        ∧ r.offsets = prefixSums 0 r.lengths
        ∧ ∀ w ∈ r.bucketViews, w.storage = r.contents.storage) :=
  initialize_buckets_spec [false, false, false]
    [[⟨2, 0, 0⟩, ⟨3, 0, 0⟩, ⟨1, 0, 0⟩]] [[2, 0], [1]] bkExBs bkExLocs
    (by decide) rfl

end BK

namespace Sync

/-- Casting a `size_t` value into a 32-bit signed accessor slot
(`indices_accessor[k] = value` with `auto accessor<int, 1>`,
reducer.cpp:1107-1114): two's-complement wrap into `[-2^31, 2^31)`. -/
def wrap32 (n : Nat) : Int :=
  ((n : Int) + 2147483648) % 4294967296 - 2147483648

/-- Reading an `int` accessor slot back into a `size_t`
(`bucket.push_back(indices_accessor[...])`, reducer.cpp:1155): the
`int` is sign-extended and reinterpreted modulo 2^64. -/
def toSizeT (z : Int) : Nat :=
  (z % 18446744073709551616).toNat

/-- The per-bucket sizes (`bucket_sizes`, reducer.cpp:1091-1098). -/
def sizesOf (bis : List (List Nat)) : List Nat :=
  bis.map (fun b => b.length)

/-- The flat `indices_tensor` a rank packs before the first broadcast
(reducer.cpp:1106-1115): all bucket indices in order, then
`num_buckets` in the trailing slot, all through the int32 accessor. -/
def packIndices (bis : List (List Nat)) : List Int :=
  bis.flatten.map (fun v => wrap32 v) ++ [wrap32 bis.length]

/-- Receiving a broadcast of `l` into a local buffer of `n` int32
slots (`indices_tensor.copy_(indices_tensor_list.front())`,
reducer.cpp:1123; the buffer sizes agree whenever the ranks' totals
agree, the case the caller guarantees — extra slots are determinized
as 0). -/
def fitTo (n : Nat) (l : List Int) : List Int :=
  l.take n ++ List.replicate (n - l.length) 0

/-- The `bucket_sizes_tensor` a rank fills before the sizes broadcast
(reducer.cpp:1129-1136): slot `i` of `num_buckets` many gets
`bucket_sizes.at(min(i, bucket_sizes.size() - 1))` — a rank with fewer
local buckets than the broadcast `num_buckets` repeats its last local
size. -/
def paddedSizes (localSizes : List Nat) (numB : Nat) : List Int :=
  (List.range numB).map
    (fun i => wrap32 (localSizes.getD (min i (localSizes.length - 1)) 0))

/-- The reconstruction loop (reducer.cpp:1146-1158): for each received
size, pop that many entries off the received flat indices. -/
def splitBySizes (ind : List Int) : List Int → List (List Nat)
  | [] => []
  | sz :: rest =>
      (ind.take (toSizeT sz)).map toSizeT
        :: splitBySizes (ind.drop (toSizeT sz)) rest

/-- `Reducer::sync_bucket_indices` (reducer.cpp:1088-1159) as observed
by a non-source rank: `rank0Bis` is rank 0's bucket assignment (the
broadcast source), `localBis` the local one.  The local rank packs its
own tensor (overwritten by the broadcast; only its length and the
position `local total_size` at which `num_buckets` is then read
survive), receives rank 0's packed tensor, reads `num_buckets` at its
local trailer position, receives rank 0's size vector (rank 0 built it
from its own `num_buckets`), and reconstructs. -/
def sync_bucket_indices (rank0Bis localBis : List (List Nat)) :
    List (List Nat) :=
  splitBySizes
    (fitTo ((sizesOf localBis).sum + 1) (packIndices rank0Bis))
    (fitTo
      (toSizeT
        ((fitTo ((sizesOf localBis).sum + 1) (packIndices rank0Bis)).getD
          ((sizesOf localBis).sum) 0))
      (paddedSizes (sizesOf rank0Bis)
        (toSizeT
          ((packIndices rank0Bis).getD ((sizesOf rank0Bis).sum) 0))))

theorem wrap32_round {n : Nat} (h : n < 2147483648) :
    toSizeT (wrap32 n) = n := by
  rw [wrap32, toSizeT]
  omega

theorem fitTo_self {l : List Int} {n : Nat} (h : l.length = n) :
    fitTo n l = l := by
  rw [fitTo, ← h]
  simp

theorem packIndices_length (bis : List (List Nat)) :
    (packIndices bis).length = (sizesOf bis).sum + 1 := by
  rw [packIndices, sizesOf]
  simp [List.length_flatten, Function.comp_def]

theorem getD_append_singleton (l : List Int) (x d : Int) :
    (l ++ [x]).getD l.length d = x := by
  induction l with
  | nil => rfl
  | cons a t ih => simpa using ih

theorem packIndices_getD_total (bis : List (List Nat)) :
    (packIndices bis).getD ((sizesOf bis).sum) 0 = wrap32 bis.length := by
  have hlen : (bis.flatten.map (fun v => wrap32 v)).length
      = (sizesOf bis).sum := by
    rw [sizesOf]
    simp [List.length_flatten, Function.comp_def]
  rw [packIndices, ← hlen, getD_append_singleton]

theorem map_wrap_round :
    ∀ (I : List Nat), (∀ v ∈ I, v < 2147483648) →
      (I.map (fun v => wrap32 v)).map toSizeT = I := by
  intro I
  induction I with
  | nil => intro _; rfl
  | cons v rest ih =>
      intro hb
      rw [List.map_cons, List.map_cons,
        wrap32_round (hb v (List.mem_cons_self _ _)),
        ih (fun u hu => hb u (List.mem_cons_of_mem _ hu))]

theorem splitBySizes_packed :
    ∀ (bis : List (List Nat)) (suffix : List Int),
      (∀ I ∈ bis, ∀ v ∈ I, v < 2147483648) →
      (∀ I ∈ bis, I.length < 2147483648) →
      splitBySizes (bis.flatten.map (fun v => wrap32 v) ++ suffix)
        (bis.map (fun I => wrap32 I.length)) = bis := by
  intro bis
  induction bis with
  | nil => intro suffix _ _; rfl
  | cons I rest ih =>
      intro suffix hb hsz
      rw [List.map_cons, splitBySizes]
      have hszI : toSizeT (wrap32 I.length) = I.length :=
        wrap32_round (hsz I (List.mem_cons_self _ _))
      have hflat : (I :: rest).flatten.map (fun v => wrap32 v)
          = I.map (fun v => wrap32 v)
            ++ rest.flatten.map (fun v => wrap32 v) := by
        rw [List.flatten_cons, List.map_append]
      rw [hflat, List.append_assoc, hszI]
      have hlenm : (I.map (fun v => wrap32 v)).length = I.length := by
        simp
      rw [← hlenm, List.take_left, List.drop_left,
        map_wrap_round I (hb I (List.mem_cons_self _ _)),
        ih suffix (fun J hJ => hb J (List.mem_cons_of_mem _ hJ))
          (fun J hJ => hsz J (List.mem_cons_of_mem _ hJ))]

theorem paddedSizes_self (bis : List (List Nat)) :
    paddedSizes (sizesOf bis) bis.length
      = bis.map (fun I => wrap32 I.length) := by
  apply List.ext_getElem
  · simp [paddedSizes]
  · intro i h1 h2
    have hi : i < bis.length := by simpa using h2
    simp only [paddedSizes, List.getElem_map, List.getElem_range]
    have hlen : (sizesOf bis).length = bis.length := by simp [sizesOf]
    have hmin : min i ((sizesOf bis).length - 1) = i := by
      rw [hlen]
      omega
    rw [hmin]
    congr 1
    rw [Red.getD_eq_getElem_of_lt 0 (by rw [hlen]; exact hi)]
    simp only [sizesOf, List.getElem_map]

theorem paddedSizes_length (s : List Nat) (numB : Nat) :
    (paddedSizes s numB).length = numB := by
  simp [paddedSizes]

/-- C7: `sync_bucket_indices` packs the buckets into a flat int32
tensor with a `num_buckets` trailer plus a size vector, both broadcast
from rank 0.  Conjuncts: (1) on rank 0 the reconstruction returns the
input unchanged, provided every index and every bucket size fits in 32
bits; (2) a rank whose local bucket count is below the broadcast
`num_buckets` fills the tail of its size vector by repeating its last
local size; (3) the result is rank 0's alone — any local assignment
with the same index total reconstructs exactly what rank 0
reconstructs. -/
theorem sync_bucket_indices_spec
    (bis localBis : List (List Nat)) (localSizes : List Nat) (numB : Nat)
    (hb : ∀ I ∈ bis, ∀ v ∈ I, v < 2147483648)
    (hsz : ∀ I ∈ bis, I.length < 2147483648)
    (hnum : bis.length < 2147483648) :
    sync_bucket_indices bis bis = bis
    ∧ (∀ i, i < numB → localSizes.length - 1 ≤ i →
        (paddedSizes localSizes numB).getD i 0
          = wrap32 (localSizes.getD (localSizes.length - 1) 0))
    ∧ ((sizesOf localBis).sum = (sizesOf bis).sum →
        sync_bucket_indices bis localBis = sync_bucket_indices bis bis) := by
  refine ⟨?_, ?_, ?_⟩
  · rw [sync_bucket_indices,
      fitTo_self (by rw [packIndices_length]),
      packIndices_getD_total, wrap32_round hnum,
      fitTo_self (by rw [paddedSizes_length]),
      paddedSizes_self, packIndices]
    exact splitBySizes_packed bis _ hb hsz
  · intro i hi hle
    rw [paddedSizes]
    have him : i < (List.range numB).length := by simpa using hi
    rw [Red.getD_eq_getElem_of_lt 0 (by simpa using hi),
      List.getElem_map, List.getElem_range]
    have hmin : min i (localSizes.length - 1) = localSizes.length - 1 := by
      omega
    rw [hmin]
  · intro htot
    rw [sync_bucket_indices, sync_bucket_indices, htot]

/-- Concrete run of C7: rank 0 holds `[[0, 2], [1]]`; conjunct 1 gives
the rank-0 round trip, conjunct 2 the padded slot 3 of a 2-entry local
size vector stretched to 5, conjunct 3 that a rank holding
`[[0], [1], [2]]` (same total 3) reconstructs rank 0's buckets. -/
theorem sync_bucket_indices_spec_witness :
    sync_bucket_indices [[0, 2], [1]] [[0, 2], [1]] = [[0, 2], [1]]
    ∧ (paddedSizes [4, 7] 5).getD 3 0
        = wrap32 ([4, 7].getD ([4, 7].length - 1) 0)
    ∧ sync_bucket_indices [[0, 2], [1]] [[0], [1], [2]]
        = sync_bucket_indices [[0, 2], [1]] [[0, 2], [1]] := by
  obtain ⟨h1, h2, h3⟩ := sync_bucket_indices_spec [[0, 2], [1]]
    [[0], [1], [2]] [4, 7] 5 (by decide) (by decide) (by decide)
  exact ⟨h1, h2 3 (by decide) (by decide), h3 (by decide)⟩

end Sync
